import Mathlib

/-!
# A three-stage pipeline simulator (`ca.c`)

Shallow embedding of the simulator: the architectural state (register file,
status register, data memory, program counter), the three pipeline slots, the
loader's instruction encoding, `decode`, `execute` and the cycle loop of `main`.

Conventions.
* `uint8_t` / `uint16_t` values are natural numbers; every C assignment to such
  a variable is followed by the reduction modulo `2^8` / `2^16` that the
  conversion performs.
* C `int` values are integers; bitwise operators applied to a possibly negative
  `int` go through its 32-bit two's complement pattern (`toBits32`).
* `exit(1)` is the result `none`.
* The arrays `registers`, `data_mem` and `instr_mem` are functions from the
  index to the cell.
-/

namespace CA

/-! ## C integer conversions -/

/-- Conversion of an `int` to `uint8_t`. -/
def toU8 (i : Int) : Nat := (i % 256).toNat

/-- Conversion of an `int` to `uint16_t`. -/
def toU16 (i : Int) : Nat := (i % 65536).toNat

/-- Conversion of an `int` to `int8_t` (two's complement wrap). -/
def toI8 (i : Int) : Int := if i % 256 < 128 then i % 256 else i % 256 - 256

/-- The 32-bit two's complement pattern of an `int`. -/
def toBits32 (i : Int) : Nat := (i % 4294967296).toNat

/-- The `int` whose 32-bit two's complement pattern is `n`. -/
def ofBits32 (n : Nat) : Int :=
  if n % 4294967296 < 2147483648 then ((n % 4294967296 : Nat) : Int)
  else ((n % 4294967296 : Nat) : Int) - 4294967296

/-- C `a & b` on `int`. -/
def cAnd (a b : Int) : Int := ofBits32 (toBits32 a &&& toBits32 b)

/-- C `~a` on `int`. -/
def cNot (a : Int) : Int := ofBits32 (toBits32 a ^^^ 4294967295)

/-! ## State -/

/-- The struct `PipelineStage`. -/
structure PipelineStage where
  instruction : Nat
  valid : Bool
  opcode : Nat
  r1 : Nat
  r2 : Nat
  imm : Nat
  r1_val : Nat
  r2_val : Nat
  addr : Nat

/-- The global variables of the simulator. -/
structure Machine where
  registers : Nat → Nat
  PC : Nat
  SREG : Nat
  instr_mem : Nat → Nat
  data_mem : Nat → Nat
  IF : PipelineStage
  ID : PipelineStage
  EX : PipelineStage
  cycle : Nat
  flush : Bool
  program_size : Nat
  fetched_all : Bool

/-- Array store `a[i] = v`. -/
def store (a : Nat → Nat) (i v : Nat) : Nat → Nat :=
  fun j => if j = i then v else a j

/-- The initializer `{0, 0, 0, 0, 0, 0, 0, 0, 0}` of a slot. -/
def zeroStage : PipelineStage :=
  { instruction := 0, valid := false, opcode := 0, r1 := 0, r2 := 0, imm := 0,
    r1_val := 0, r2_val := 0, addr := 0 }

/-- The globals as initialised, with the instruction memory and `program_size`
that `loadProgram` leaves behind. -/
def initState (instr_mem : Nat → Nat) (program_size : Nat) : Machine :=
  { registers := fun _ => 0, PC := 0, SREG := 0, instr_mem := instr_mem,
    data_mem := fun _ => 0, IF := zeroStage, ID := zeroStage, EX := zeroStage,
    cycle := 1, flush := false, program_size := program_size, fetched_all := false }

/-! ## Loader -/

/-- An instruction line as `sscanf` splits it: the mnemonic and two integers,
the second one written `R<n>` (R-format) or bare (I-format). -/
inductive Line where
  | rfmt (op : String) (r1 r2 : Int)
  | ifmt (op : String) (r1 imm : Int)

/-- Opcode of an R-format mnemonic; `none` is "Unknown instruction". -/
def rOpcode (op : String) : Option Nat :=
  if op = "ADD" then some 0
  else if op = "SUB" then some 1
  else if op = "MUL" then some 2
  else if op = "EOR" then some 6
  else if op = "BR" then some 7
  else none

/-- Opcode of an I-format mnemonic; `none` is "Unknown instruction". -/
def iOpcode (op : String) : Option Nat :=
  if op = "MOVI" then some 3
  else if op = "BEQZ" then some 4
  else if op = "ANDI" then some 5
  else if op = "SAL" then some 8
  else if op = "SAR" then some 9
  else if op = "LDR" then some 10
  else if op = "STR" then some 11
  else none

/-- The word `(opcode << 12) | (a << 6) | b` stored in a `uint16_t` cell; the
operands are `int`s, taken through their bit patterns. -/
def encodeWord (opcode : Nat) (a b : Int) : Nat :=
  ((opcode <<< 12) ||| (toBits32 a <<< 6) ||| toBits32 b) % 65536

/-- One iteration of the loader's loop body on an instruction line: the encoded
word, or `none` when the loader calls `exit(1)`. -/
def loadLine : Line → Option Nat
  | .rfmt op r1 r2 =>
    match rOpcode op with
    | none => none
    | some opcode =>
      if r1 ≥ 64 ∨ r2 ≥ 64 then none
      else some (encodeWord opcode r1 r2)
  | .ifmt op r1 imm =>
    match iOpcode op with
    | none => none
    | some opcode =>
      if r1 ≥ 64 then none
      else if opcode = 10 ∨ opcode = 11 then
        if imm < 0 ∨ imm > 63 then none
        else some (encodeWord opcode r1 (cAnd imm 0x3F))
      else
        if imm < -32 ∨ imm > 31 then none
        else some (encodeWord opcode r1 (cAnd imm 0x3F))

/-- The loader's loop over the instruction lines of the file, from address
`addr`: it stops reading at `INSTR_MEM_SIZE = 1024` words. -/
def loadLines : List Line → Nat → Option (List Nat)
  | [], _ => some []
  | l :: ls, addr =>
    if addr < 1024 then
      match loadLine l with
      | none => none
      | some w =>
        match loadLines ls (addr + 1) with
        | none => none
        | some ws => some (w :: ws)
    else some []

/-- The function `loadProgram` on the instruction lines of the file. -/
def loadProgram (ls : List Line) : Option (List Nat) := loadLines ls 0

/-- The machine after `loadProgram` stored the words `ws`. -/
def loaded (ws : List Nat) : Machine :=
  initState (fun i => ws.getD i 0) ws.length

/-! ## Decode -/

/-- The function `decode`. -/
def decode (registers : Nat → Nat) (stage : PipelineStage) : PipelineStage :=
  if !stage.valid then stage
  else
    let opcode := (stage.instruction >>> 12) &&& 0xF
    let r1 := (stage.instruction >>> 6) &&& 0x3F
    let r2 := stage.instruction &&& 0x3F
    { stage with
      opcode := opcode, r1 := r1, r2 := r2, imm := r2,
      r1_val := registers r1,
      r2_val := if opcode ≤ 2 ∨ opcode = 6 ∨ opcode = 7 then registers r2 else 0 }

/-! ## Execute -/

/-- The local `int8_t imm` of `execute`: the sign-extended field. -/
def immOf (stage : PipelineStage) : Int :=
  if stage.imm &&& 0x20 ≠ 0 then toI8 ((stage.imm ||| 0xC0 : Nat) : Int)
  else toI8 (stage.imm : Int)

/-- The local `uint8_t mem_addr` of `execute`. -/
def memAddrOf (stage : PipelineStage) : Nat := (stage.imm &&& 0x3F) % 256

/-- The statement `SREG |= (1 << k)`. -/
def setFlag (sreg k : Nat) : Nat := (sreg ||| (1 <<< k)) % 256

/-- The statement `SREG &= ~(1 << k)`. -/
def clearFlag (sreg k : Nat) : Nat := toU8 (cAnd (sreg : Int) (cNot ((1 <<< k : Nat) : Int)))

/-- The statements updating the Negative and Zero flags from `result`. -/
def setNZ (sreg result : Nat) : Nat :=
  let s1 := if result &&& 0x80 ≠ 0 then setFlag sreg 1 else clearFlag sreg 1
  if result = 0 then setFlag s1 0 else clearFlag s1 0

/-- The statement updating the Sign flag (N XOR V). -/
def setS (sreg : Nat) : Nat :=
  if ((sreg >>> 1) &&& 1) ^^^ ((sreg >>> 2) &&& 1) ≠ 0 then setFlag sreg 4
  else clearFlag sreg 4

/-- The branch epilogue of `execute` followed by `SREG &= 0x1F`. -/
def finish (m : Machine) (branch : Bool) (branch_addr : Nat) : Option Machine :=
  if branch then
    if branch_addr ≥ m.program_size then none
    else some { m with PC := branch_addr, flush := true, SREG := (m.SREG &&& 0x1F) % 256 }
  else some { m with SREG := (m.SREG &&& 0x1F) % 256 }

/-- The function `execute`; `none` is `exit(1)`. -/
def execute (stage : PipelineStage) (m : Machine) : Option Machine :=
  if !stage.valid then some m
  else
    let imm := immOf stage
    let mem_addr := memAddrOf stage
    match stage.opcode with
    | 0 =>
      let result := (stage.r1_val + stage.r2_val) % 256
      let regs := store m.registers stage.r1 result
      let s1 := if (stage.r1_val + stage.r2_val) % 65536 > 255 then setFlag m.SREG 3
                else clearFlag m.SREG 3
      let s2 := if (stage.r1_val < 128 ∧ stage.r2_val < 128 ∧ result ≥ 128) ∨
                   (stage.r1_val ≥ 128 ∧ stage.r2_val ≥ 128 ∧ result < 128)
                then setFlag s1 2 else clearFlag s1 2
      finish { m with registers := regs, SREG := setS (setNZ s2 result) } false 0
    | 1 =>
      let result := toU8 ((stage.r1_val : Int) - (stage.r2_val : Int))
      let regs := store m.registers stage.r1 result
      let s2 := if (stage.r1_val < 128 ∧ stage.r2_val ≥ 128 ∧ result ≥ 128) ∨
                   (stage.r1_val ≥ 128 ∧ stage.r2_val < 128 ∧ result < 128)
                then setFlag m.SREG 2 else clearFlag m.SREG 2
      finish { m with registers := regs, SREG := setS (setNZ s2 result) } false 0
    | 2 =>
      let result := (stage.r1_val * stage.r2_val) % 256
      finish { m with registers := store m.registers stage.r1 result,
                      SREG := setNZ m.SREG result } false 0
    | 3 =>
      let result := toU8 imm
      finish { m with registers := store m.registers stage.r1 result } false 0
    | 4 =>
      if stage.r1_val = 0 then finish m true (toU16 ((stage.addr : Int) + 1 + imm))
      else finish m false 0
    | 5 =>
      let result := toU8 (cAnd (stage.r1_val : Int) imm)
      finish { m with registers := store m.registers stage.r1 result,
                      SREG := setNZ m.SREG result } false 0
    | 6 =>
      let result := (stage.r1_val ^^^ stage.r2_val) % 256
      finish { m with registers := store m.registers stage.r1 result,
                      SREG := setNZ m.SREG result } false 0
    | 7 =>
      finish m true (((stage.r1_val <<< 8) ||| stage.r2_val) % 65536)
    | 8 =>
      let result := (stage.r1_val <<< (cAnd imm 0x7).toNat) % 256
      finish { m with registers := store m.registers stage.r1 result,
                      SREG := setNZ m.SREG result } false 0
    | 9 =>
      let result := toU8 (toI8 (stage.r1_val : Int) >>> (cAnd imm 0x7).toNat)
      finish { m with registers := store m.registers stage.r1 result,
                      SREG := setNZ m.SREG result } false 0
    | 10 =>
      let result := m.data_mem mem_addr
      finish { m with registers := store m.registers stage.r1 result } false 0
    | 11 =>
      finish { m with data_mem := store m.data_mem mem_addr stage.r1_val } false 0
    | _ => finish m false 0

/-! ## The cycle loop of `main` -/

/-- The pre-fetch of `main` before cycle 1. -/
def prefetch (m : Machine) : Machine :=
  if m.program_size > 0 then
    { m with
      IF := { m.IF with instruction := m.instr_mem m.PC, addr := m.PC, valid := true },
      PC := (m.PC + 1) % 65536 }
  else m

/-- The advance, decode and fetch steps of the loop body, after `printPipeline`. -/
def advance (m : Machine) : Machine :=
  let m1 := { m with EX := m.ID, ID := decode m.registers m.IF }
  if !m1.fetched_all ∧ m1.PC < m1.program_size then
    { m1 with
      IF := { m1.IF with instruction := m1.instr_mem m1.PC, addr := m1.PC, valid := true },
      PC := (m1.PC + 1) % 65536 }
  else
    { m1 with
      IF := { m1.IF with valid := false },
      fetched_all := if m1.PC ≥ m1.program_size then true else m1.fetched_all }

/-- The flush step of the loop body followed by `cycle++`. -/
def applyFlush (m : Machine) : Machine :=
  if m.flush then
    { m with ID := { m.ID with valid := false }, IF := { m.IF with valid := false },
             flush := false, cycle := m.cycle + 1 }
  else { m with cycle := m.cycle + 1 }

/-- One iteration of the `while (!done)` loop, up to the test that sets `done`;
`none` when `execute` calls `exit(1)`. -/
def cycleStep (m : Machine) : Option Machine :=
  match execute m.EX m with
  | none => none
  | some m1 => some (applyFlush (advance m1))

/-- The test that sets `done`. -/
def isDone (m : Machine) : Bool :=
  m.fetched_all && !m.IF.valid && !m.ID.valid && !m.EX.valid

/-- How a run of the loop ends. -/
inductive Outcome where
  | finished (m : Machine)
  | fatal
  | outOfFuel

/-- The `while (!done)` loop, for at most `fuel` iterations. -/
def loop : Nat → Machine → Outcome
  | 0, _ => .outOfFuel
  | fuel + 1, m =>
    match cycleStep m with
    | none => .fatal
    | some m1 => if isDone m1 then .finished m1 else loop fuel m1

/-- The simulation part of `main` on the loaded machine. -/
def simulate (fuel : Nat) (m : Machine) : Outcome := loop fuel (prefetch m)

/-- The state after `n` iterations of the loop body (the `done` test aside). -/
def iter : Nat → Machine → Option Machine
  | 0, m => some m
  | n + 1, m =>
    match cycleStep m with
    | none => none
    | some m1 => iter n m1

/-- The final machine of a run that drained. -/
def Outcome.final : Outcome → Option Machine
  | .finished m => some m
  | _ => none

/-! ## Status flags -/

/-- Bit `j` of the status byte, read as `printFinal` reads it: `(SREG >> j) & 1`. -/
def bitOf (s j : Nat) : Nat := (s >>> j) &&& 1

/-- The Zero flag, `SREG & 1`. -/
def flagZ (s : Nat) : Nat := s &&& 1

/-- The Negative flag, `(SREG >> 1) & 1`. -/
def flagN (s : Nat) : Nat := (s >>> 1) &&& 1

/-- The Overflow flag, `(SREG >> 2) & 1`. -/
def flagV (s : Nat) : Nat := (s >>> 2) &&& 1

/-- The Carry flag, `(SREG >> 3) & 1`. -/
def flagC (s : Nat) : Nat := (s >>> 3) &&& 1

/-- The Sign flag, `(SREG >> 4) & 1`. -/
def flagS (s : Nat) : Nat := (s >>> 4) &&& 1

/-- An 8-bit value read as a two's complement signed number. -/
def signed8 (a : Nat) : Int := if a < 128 then (a : Int) else (a : Int) - 256

/-- The instruction in the slot is a branch that `execute` takes. -/
def takenBranch (stage : PipelineStage) : Bool :=
  stage.opcode == 7 || (stage.opcode == 4 && stage.r1_val == 0)

/-- The local `branch_addr` that `execute` computes for a taken branch. -/
def branchTarget (stage : PipelineStage) : Nat :=
  if stage.opcode = 7 then ((stage.r1_val <<< 8) ||| stage.r2_val) % 65536
  else toU16 ((stage.addr : Int) + 1 + immOf stage)

/-- The machine at the top of the loop body in some run of `main`, on a program
of at most `INSTR_MEM_SIZE = 1024` words. -/
def Reachable (m : Machine) : Prop :=
  ∃ (instr_mem : Nat → Nat) (program_size n : Nat), program_size ≤ 1024 ∧
    iter n (prefetch (initState instr_mem program_size)) = some m

/-- No branch is taken in the first `c` cycles of the run from `s`: at the top
of each of them the Execute slot is invalid or holds no taken branch. -/
def noBranchTaken (s : Machine) : Nat → Bool
  | 0 => true
  | c + 1 =>
    !(s.EX.valid && takenBranch s.EX) &&
      match cycleStep s with
      | some s1 => noBranchTaken s1 c
      | none => false

/-- The function `main` on the instruction lines of `program.txt`: a load
error ends the process before any cycle. -/
def main (fuel : Nat) (ls : List Line) : Outcome :=
  match loadProgram ls with
  | none => .fatal
  | some ws => simulate fuel (loaded ws)

/-- The machine at the top of the loop body after `n` cycles of `main` on the
instruction lines `ls`. -/
def stateAfter (n : Nat) (ls : List Line) : Option Machine :=
  match loadProgram ls with
  | none => none
  | some ws => iter n (prefetch (loaded ws))

/-! ## Example programs and slots -/

/-- The program `MOVI R0 5; MOVI R1 3; ADD R0 R1`. -/
def progAdd : List Line :=
  [.ifmt "MOVI" 0 5, .ifmt "MOVI" 1 3, .rfmt "ADD" 0 1]

/-- The program `MOVI R0 0; BEQZ R0 2; MOVI R0 9; MOVI R1 1; MOVI R2 2`: the
branch at index 1 has target 4. -/
def progBranch : List Line :=
  [.ifmt "MOVI" 0 0, .ifmt "BEQZ" 0 2, .ifmt "MOVI" 0 9, .ifmt "MOVI" 1 1, .ifmt "MOVI" 2 2]

/-- The program `progBranch` followed by `MOVI R3 3; MOVI R4 4`. -/
def progTarget : List Line :=
  progBranch ++ [.ifmt "MOVI" 3 3, .ifmt "MOVI" 4 4]

/-- The program `MOVI R1 1; MOVI R2 2; BEQZ R1 1; BEQZ R0 1; MOVI R3 3; MOVI R4 4;
MOVI R5 5`. -/
def progTwoBeqz : List Line :=
  [.ifmt "MOVI" 1 1, .ifmt "MOVI" 2 2, .ifmt "BEQZ" 1 1, .ifmt "BEQZ" 0 1, .ifmt "MOVI" 3 3,
   .ifmt "MOVI" 4 4, .ifmt "MOVI" 5 5]

/-- The words that the loader stores for `progTwoBeqz`. -/
def wordsTwoBeqz : List Nat := [12353, 12418, 16449, 16385, 12483, 12548, 12613]

/-- The machine after `n` cycles on `wordsTwoBeqz`. -/
def twoBeqzState (n : Nat) : Machine :=
  (iter n (prefetch (initState (fun i => wordsTwoBeqz.getD i 0) 7))).getD
    (initState (fun _ => 0) 0)

/-- A valid ADD slot with operand snapshots 200 and 100. -/
def addSlot : PipelineStage :=
  { zeroStage with valid := true, opcode := 0, r1 := 5, r1_val := 200, r2_val := 100 }

/-- A valid SUB slot with operand snapshots 100 and 200. -/
def subSlot : PipelineStage :=
  { zeroStage with valid := true, opcode := 1, r1 := 5, r1_val := 100, r2_val := 200 }

/-- A valid BR slot with operand snapshots 0 and 3. -/
def brSlot : PipelineStage :=
  { zeroStage with valid := true, opcode := 7, r1 := 1, r2 := 2, r1_val := 0, r2_val := 3 }

/-- A valid BEQZ slot fetched at address 2 with field2 = 60 (immediate -4) and
operand snapshot 0. -/
def beqzBackSlot : PipelineStage :=
  { zeroStage with valid := true, opcode := 4, r1 := 0, r2 := 60, imm := 60, r1_val := 0,
                   addr := 2 }

/-! ## Invariants -/

/-- What `execute` leaves alone, and the mask on the status byte. -/
structure ExecFrame (m m1 : Machine) : Prop where
  hIF : m1.IF = m.IF
  hID : m1.ID = m.ID
  hEX : m1.EX = m.EX
  hmem : m1.instr_mem = m.instr_mem
  hsize : m1.program_size = m.program_size
  hall : m1.fetched_all = m.fetched_all
  hcycle : m1.cycle = m.cycle
  hsreg : m.SREG < 32 → m1.SREG < 32

/-- Facts that hold at the top of every loop iteration. -/
structure TopInv (m : Machine) : Prop where
  hflush : m.flush = false
  hsreg : m.SREG < 32
  hID : m.ID.valid = true → m.ID.imm < 64
  hEX : m.EX.valid = true → m.EX.imm < 64

/-- The state after `j` cycles of a run of `k ≥ 1` instructions without a taken
branch. -/
structure Straight (k j : Nat) (m : Machine) : Prop where
  hsize : m.program_size = k
  hflush : m.flush = false
  hPC : m.PC = min (j + 1) k
  hall : m.fetched_all = decide (k ≤ j)
  hIF : m.IF.valid = decide (j < k)
  hID : m.ID.valid = decide (1 ≤ j ∧ j ≤ k)
  hEX : m.EX.valid = decide (2 ≤ j ∧ j ≤ k + 1)
  hcycle : m.cycle = j + 1

/-! ## Accesses, results and slot contents -/

/-- The Fetch slot as the fetch step fills it from the initial slot: the word
`w` read at address `addr`. -/
def fetched (w addr : Nat) : PipelineStage :=
  { zeroStage with instruction := w, addr := addr, valid := true }

/-- The local `result` of `execute` for the opcodes that write it to
`registers[stage->r1]`; `none` for BEQZ, BR, STR and the unassigned opcodes, which
write no register. -/
def resultOf (stage : PipelineStage) (m : Machine) : Option Nat :=
  match stage.opcode with
  | 0 => some ((stage.r1_val + stage.r2_val) % 256)
  | 1 => some (toU8 ((stage.r1_val : Int) - (stage.r2_val : Int)))
  | 2 => some ((stage.r1_val * stage.r2_val) % 256)
  | 3 => some (toU8 (immOf stage))
  | 5 => some (toU8 (cAnd (stage.r1_val : Int) (immOf stage)))
  | 6 => some ((stage.r1_val ^^^ stage.r2_val) % 256)
  | 8 => some ((stage.r1_val <<< (cAnd (immOf stage) 0x7).toNat) % 256)
  | 9 => some (toU8 (toI8 (stage.r1_val : Int) >>> (cAnd (immOf stage) 0x7).toNat))
  | 10 => some (m.data_mem (memAddrOf stage))
  | _ => none

/-- The slot contents after `j` cycles of a run of `k` instructions, held in
`im`, without a taken branch: the Fetch, Decode and Execute slots hold the
instructions of index `j`, `j - 1` and `j - 2`. -/
structure StraightSlots (im : Nat → Nat) (k j : Nat) (m : Machine) : Prop where
  hmem : m.instr_mem = im
  hIF : j < k → m.IF = fetched (im j) j
  hID : 1 ≤ j → j ≤ k → m.ID = decode m.registers (fetched (im (j - 1)) (j - 1))
  hEX : 2 ≤ j → j ≤ k + 1 → ∃ regs, m.EX = decode regs (fetched (im (j - 2)) (j - 2))

/-- The index at which the pre-fetch of `main` reads `instr_mem`, when it reads. -/
def prefetchRead (m : Machine) : Option Nat :=
  if m.program_size > 0 then some m.PC else none

/-- The index at which the fetch step of the loop body reads `instr_mem`, when it
reads; `m` is the machine after `printPipeline`. -/
def fetchRead (m : Machine) : Option Nat :=
  if !m.fetched_all ∧ m.PC < m.program_size then some m.PC else none

/-- The indices at which `decode` reads `registers`. -/
def decodeRegReads (stage : PipelineStage) : List Nat :=
  if !stage.valid then []
  else
    let opcode := (stage.instruction >>> 12) &&& 0xF
    let r1 := (stage.instruction >>> 6) &&& 0x3F
    let r2 := stage.instruction &&& 0x3F
    if opcode ≤ 2 ∨ opcode = 6 ∨ opcode = 7 then [r1, r2] else [r1]

/-- The index at which `execute` writes `registers`, when it writes. -/
def executeRegWrite (stage : PipelineStage) : Option Nat :=
  if !stage.valid then none
  else
    match stage.opcode with
    | 0 | 1 | 2 | 3 | 5 | 6 | 8 | 9 | 10 => some stage.r1
    | _ => none

/-- The index at which `execute` reads (LDR) or writes (STR) `data_mem`, when it
does. -/
def executeMemAccess (stage : PipelineStage) : Option Nat :=
  if !stage.valid then none
  else
    match stage.opcode with
    | 10 | 11 => some (memAddrOf stage)
    | _ => none

/-- Bounds that hold at the top of every loop iteration. -/
structure SafeInv (m : Machine) : Prop where
  hsize : m.program_size ≤ 1024
  hPC : m.PC ≤ m.program_size
  hID : m.ID.valid = true → m.ID.r1 < 64
  hEX : m.EX.valid = true → m.EX.r1 < 64

/-! ## More example slots and programs -/

/-- A register file with `registers[1] = 63`, all other registers 0. -/
def regsOne : Nat → Nat := store (fun _ => 0) 1 63

/-- The Fetch slot holding the word of `STR R1 10`. -/
def strSlot : PipelineStage := fetched 0xB04A 1

/-- The Fetch slot holding the word of `LDR R2 10`. -/
def ldrSlot : PipelineStage := fetched 0xA08A 2

/-- A valid SAR slot: operand snapshot 253 (that is -3), field2 = 1. -/
def sarSlot : PipelineStage :=
  { zeroStage with valid := true, opcode := 9, r1 := 4, r2 := 1, imm := 1, r1_val := 253 }

/-- The machine after `n` cycles on the words of `progAdd`. -/
def addState (n : Nat) : Machine :=
  (iter n (prefetch (initState (fun i => [0x3005, 0x3043, 0x0001].getD i 0) 3))).getD
    (initState (fun _ => 0) 0)

/-- The program `MOVI R1 1; MOVI R2 2; MOVI R3 3; BEQZ R0 -3; MOVI R4 4`: the
branch at index 3, the last but one, is taken with target 1. -/
def progLateBranch : List Line :=
  [.ifmt "MOVI" 1 1, .ifmt "MOVI" 2 2, .ifmt "MOVI" 3 3, .ifmt "BEQZ" 0 (-3),
   .ifmt "MOVI" 4 4]

/-- The words that the loader stores for `progLateBranch`. -/
def wordsLateBranch : List Nat := [12353, 12418, 12483, 16445, 12548]

/-! ## Lemmas on the C integer conversions and on the flag statements -/

theorem toU8_natCast (n : Nat) : toU8 (n : Int) = n % 256 := by
  unfold toU8; omega
theorem toU8_ofBits32 (n : Nat) : toU8 (ofBits32 n) = n % 256 := by
  unfold toU8 ofBits32; split <;> omega
theorem toBits32_mod (a : Int) : toBits32 a % 256 = toU8 a := by
  unfold toBits32 toU8; omega
theorem and_mod_256 (a b : Nat) : (a &&& b) % 256 = (a % 256) &&& (b % 256) := by
  apply Nat.eq_of_testBit_eq
  intro i
  have h : (256 : Nat) = 2 ^ 8 := by norm_num
  rw [h]
  simp only [Nat.testBit_mod_two_pow, Nat.testBit_and]
  cases decide (i < 8) <;> simp
theorem toU8_cAnd (a b : Int) : toU8 (cAnd a b) = toU8 a &&& toU8 b := by
  unfold cAnd
  rw [toU8_ofBits32, and_mod_256, toBits32_mod, toBits32_mod]
theorem notMask_testBit : ∀ k < 8, ∀ j < 8,
    (toU8 (cNot ((1 <<< k : Nat) : Int))).testBit j = (j != k) := by
  decide


theorem bitOf_eq (s j : Nat) : bitOf s j = (s.testBit j).toNat := by
  unfold bitOf
  rw [Nat.and_one_is_mod, Nat.shiftRight_eq_div_pow, Nat.toNat_testBit]

theorem testBit_mod_256 (s j : Nat) : (s % 256).testBit j = (decide (j < 8) && s.testBit j) := by
  have h : (256 : Nat) = 2 ^ 8 := by norm_num
  rw [h, Nat.testBit_mod_two_pow]

theorem bitOf_setFlag (s k j : Nat) (hj : j < 8) :
    bitOf (setFlag s k) j = if j = k then 1 else bitOf s j := by
  simp only [bitOf_eq, setFlag, testBit_mod_256, Nat.testBit_or, Nat.one_shiftLeft,
    Nat.testBit_two_pow, hj, decide_True, Bool.true_and]
  by_cases h : j = k
  · subst h; simp
  · have h' : ¬ k = j := fun e => h e.symm
    simp [h, h']

theorem bitOf_clearFlag (s k j : Nat) (hk : k < 8) (hj : j < 8) :
    bitOf (clearFlag s k) j = if j = k then 0 else bitOf s j := by
  simp only [bitOf_eq, clearFlag, toU8_cAnd, toU8_natCast, Nat.testBit_and, testBit_mod_256,
    notMask_testBit k hk j hj, hj, decide_True, Bool.true_and]
  by_cases h : j = k
  · subst h; simp
  · have hb : (j != k) = true := by simp [h]
    simp [h, hb]

theorem bitOf_mask (s j : Nat) (hj : j < 5) : bitOf ((s &&& 0x1F) % 256) j = bitOf s j := by
  have h31 : (0x1F : Nat) = 2 ^ 5 - 1 := by norm_num
  have hj8 : j < 8 := by omega
  simp only [bitOf_eq, testBit_mod_256, Nat.testBit_and, h31, Nat.testBit_two_pow_sub_one, hj, hj8,
    decide_True, Bool.true_and, Bool.and_true]

theorem bitOf_mask_high (s j : Nat) (hj : 5 ≤ j) : bitOf ((s &&& 0x1F) % 256) j = 0 := by
  have h31 : (0x1F : Nat) = 2 ^ 5 - 1 := by norm_num
  have hj' : ¬ j < 5 := by omega
  simp only [bitOf_eq, testBit_mod_256, Nat.testBit_and, h31, Nat.testBit_two_pow_sub_one, hj',
    decide_False, Bool.and_false, Bool.toNat_false]

theorem bitOf_le_one (s j : Nat) : bitOf s j ≤ 1 := by
  rw [bitOf_eq]; cases s.testBit j <;> simp

theorem bitOf_setNZ_zero (s r : Nat) : bitOf (setNZ s r) 0 = if r = 0 then 1 else 0 := by
  unfold setNZ
  by_cases h : r = 0
  · simp only [h, if_true]; rw [bitOf_setFlag _ _ _ (by decide)]; simp
  · simp only [h, if_false]; rw [bitOf_clearFlag _ _ _ (by decide) (by decide)]; simp

theorem bitOf_setNZ_one (s r : Nat) :
    bitOf (setNZ s r) 1 = if r &&& 0x80 ≠ 0 then 1 else 0 := by
  unfold setNZ
  have hs : ∀ t, bitOf (if r = 0 then setFlag t 0 else clearFlag t 0) 1 = bitOf t 1 := by
    intro t
    split
    · rw [bitOf_setFlag _ _ _ (by decide)]; simp
    · rw [bitOf_clearFlag _ _ _ (by decide) (by decide)]; simp
  simp only [hs]
  split
  · rw [bitOf_setFlag _ _ _ (by decide)]; simp
  · rw [bitOf_clearFlag _ _ _ (by decide) (by decide)]; simp

theorem bitOf_setNZ_other (s r j : Nat) (h2 : 2 ≤ j) (hj : j < 8) :
    bitOf (setNZ s r) j = bitOf s j := by
  unfold setNZ
  have h0 : ¬ j = 0 := by omega
  have h1 : ¬ j = 1 := by omega
  have hs : ∀ t, bitOf (if r = 0 then setFlag t 0 else clearFlag t 0) j = bitOf t j := by
    intro t
    split
    · rw [bitOf_setFlag _ _ _ hj]; simp [h0]
    · rw [bitOf_clearFlag _ _ _ (by decide) hj]; simp [h0]
  simp only [hs]
  split
  · rw [bitOf_setFlag _ _ _ hj]; simp [h1]
  · rw [bitOf_clearFlag _ _ _ (by decide) hj]; simp [h1]

theorem bitOf_setS_four (s : Nat) : bitOf (setS s) 4 = bitOf s 1 ^^^ bitOf s 2 := by
  unfold setS
  have e1 : (s >>> 1) &&& 1 = bitOf s 1 := rfl
  have e2 : (s >>> 2) &&& 1 = bitOf s 2 := rfl
  rw [e1, e2]
  have b1 := bitOf_le_one s 1
  have b2 := bitOf_le_one s 2
  split
  · rename_i h
    rw [bitOf_setFlag _ _ _ (by decide)]
    have : bitOf s 1 = 0 ∨ bitOf s 1 = 1 := by omega
    have : bitOf s 2 = 0 ∨ bitOf s 2 = 1 := by omega
    rcases ‹bitOf s 1 = 0 ∨ bitOf s 1 = 1› with a | a <;>
      rcases ‹bitOf s 2 = 0 ∨ bitOf s 2 = 1› with b | b <;> simp_all
  · rename_i h
    rw [bitOf_clearFlag _ _ _ (by decide) (by decide)]
    simp only [ne_eq, not_not] at h
    simp [h]

theorem bitOf_setS_other (s j : Nat) (h4 : j ≠ 4) (hj : j < 8) :
    bitOf (setS s) j = bitOf s j := by
  unfold setS
  split
  · rw [bitOf_setFlag _ _ _ hj]; simp [h4]
  · rw [bitOf_clearFlag _ _ _ (by decide) hj]; simp [h4]


theorem flagZ_eq (s : Nat) : flagZ s = bitOf s 0 := rfl
theorem flagN_eq (s : Nat) : flagN s = bitOf s 1 := rfl
theorem flagV_eq (s : Nat) : flagV s = bitOf s 2 := rfl
theorem flagC_eq (s : Nat) : flagC s = bitOf s 3 := rfl
theorem flagS_eq (s : Nat) : flagS s = bitOf s 4 := rfl

theorem and_128_ne_zero (r : Nat) : (r &&& 0x80 ≠ 0) ↔ r.testBit 7 = true := by
  have h : (0x80 : Nat) = 2 ^ 7 := by norm_num
  rw [h, Nat.and_two_pow]
  cases r.testBit 7 <;> simp

/-! ## ADD and SUB -/

/-- C5. For a valid Execute-slot entry with opcode ADD or SUB, `execute` returns
and writes `(op1 + op2) mod 256`, respectively `(op1 - op2) mod 256`, to
`registers[field1]`; afterwards the Zero bit is 1 iff that result is 0, the
Negative bit is 1 iff bit 7 of the result is set, and the Sign bit is the XOR of
the Negative bit and the Overflow bit. -/
theorem execute_add_sub_result_flags (st : PipelineStage) (m : Machine)
    (hv : st.valid = true) (hop : st.opcode = 0 ∨ st.opcode = 1) :
    ∃ m1, execute st m = some m1 ∧
      ((m1.registers st.r1 : Int) =
        if st.opcode = 0 then ((st.r1_val : Int) + (st.r2_val : Int)) % 256
        else ((st.r1_val : Int) - (st.r2_val : Int)) % 256) ∧
      (flagZ m1.SREG = 1 ↔ m1.registers st.r1 = 0) ∧
      (flagN m1.SREG = 1 ↔ (m1.registers st.r1).testBit 7 = true) ∧
      flagS m1.SREG = flagN m1.SREG ^^^ flagV m1.SREG := by
  rcases hop with hop | hop
  · simp only [execute, hv, hop, finish]
    refine ⟨_, rfl, ?_, ?_, ?_, ?_⟩
    · simp [store]
    · simp only [flagZ_eq, bitOf_mask _ 0 (by decide), bitOf_setS_other _ 0 (by decide) (by decide),
        bitOf_setNZ_zero, store, if_true]
      split <;> simp_all
    · simp only [flagN_eq, bitOf_mask _ 1 (by decide), bitOf_setS_other _ 1 (by decide) (by decide),
        bitOf_setNZ_one, store, if_true, ← and_128_ne_zero]
      split <;> simp_all
    · simp only [flagS_eq, flagN_eq, flagV_eq, bitOf_mask _ 4 (by decide),
        bitOf_mask _ 1 (by decide), bitOf_mask _ 2 (by decide), bitOf_setS_four,
        bitOf_setS_other _ 1 (by decide) (by decide), bitOf_setS_other _ 2 (by decide) (by decide)]
  · simp only [execute, hv, hop, finish]
    refine ⟨_, rfl, ?_, ?_, ?_, ?_⟩
    · simp [store, toU8]; omega
    · simp only [flagZ_eq, bitOf_mask _ 0 (by decide), bitOf_setS_other _ 0 (by decide) (by decide),
        bitOf_setNZ_zero, store, if_true]
      split <;> simp_all
    · simp only [flagN_eq, bitOf_mask _ 1 (by decide), bitOf_setS_other _ 1 (by decide) (by decide),
        bitOf_setNZ_one, store, if_true, ← and_128_ne_zero]
      split <;> simp_all
    · simp only [flagS_eq, flagN_eq, flagV_eq, bitOf_mask _ 4 (by decide),
        bitOf_mask _ 1 (by decide), bitOf_mask _ 2 (by decide), bitOf_setS_four,
        bitOf_setS_other _ 1 (by decide) (by decide), bitOf_setS_other _ 2 (by decide) (by decide)]

/-! ## Carry and overflow -/

theorem bitOf_ite_flag (c : Prop) [Decidable c] (s k j : Nat) (hk : k < 8) (hj : j < 8) :
    bitOf (if c then setFlag s k else clearFlag s k) j =
      if j = k then (if c then 1 else 0) else bitOf s j := by
  by_cases h : c
  · simp only [h, if_true]; exact bitOf_setFlag s k j hj
  · simp only [h, if_false]; exact bitOf_clearFlag s k j hk hj

/-- C6. For a valid ADD in the Execute slot with 8-bit operand snapshots,
`execute` returns and leaves the Carry bit equal to 1 exactly when the sum of the
two operands, computed over the integers, exceeds 255, for every earlier status
byte. -/
theorem execute_add_carry (st : PipelineStage) (m : Machine)
    (hv : st.valid = true) (hop : st.opcode = 0)
    (h1 : st.r1_val < 256) (h2 : st.r2_val < 256) :
    ∃ m1, execute st m = some m1 ∧
      (flagC m1.SREG = 1 ↔ st.r1_val + st.r2_val > 255) := by
  simp only [execute, hv, hop, finish]
  refine ⟨_, rfl, ?_⟩
  simp only [flagC_eq, bitOf_mask _ 3 (by decide), bitOf_setS_other _ 3 (by decide) (by decide),
    bitOf_setNZ_other _ _ 3 (by decide) (by decide),
    bitOf_ite_flag _ _ 2 3 (by decide) (by decide),
    bitOf_ite_flag _ _ 3 3 (by decide) (by decide)]
  have e : (st.r1_val + st.r2_val) % 65536 = st.r1_val + st.r2_val := by omega
  rw [e]
  by_cases h : st.r1_val + st.r2_val > 255 <;> simp [h]

/-- C7. For a valid ADD or SUB in the Execute slot with 8-bit operand snapshots
read as two's complement values `sa`, `sb`, `execute` returns and leaves the
Overflow bit equal to 1 exactly when `sa + sb` (ADD), respectively `sa - sb`
(SUB), lies outside `[-128, 127]`. -/
theorem execute_add_sub_overflow (st : PipelineStage) (m : Machine)
    (hv : st.valid = true) (hop : st.opcode = 0 ∨ st.opcode = 1)
    (h1 : st.r1_val < 256) (h2 : st.r2_val < 256) :
    ∃ m1, execute st m = some m1 ∧
      (flagV m1.SREG = 1 ↔
        if st.opcode = 0 then
          (signed8 st.r1_val + signed8 st.r2_val < -128 ∨
            127 < signed8 st.r1_val + signed8 st.r2_val)
        else
          (signed8 st.r1_val - signed8 st.r2_val < -128 ∨
            127 < signed8 st.r1_val - signed8 st.r2_val)) := by
  rcases hop with hop | hop
  · simp only [execute, hv, hop, finish]
    refine ⟨_, rfl, ?_⟩
    simp only [flagV_eq, bitOf_mask _ 2 (by decide), bitOf_setS_other _ 2 (by decide) (by decide),
      bitOf_setNZ_other _ _ 2 (by decide) (by decide),
      bitOf_ite_flag _ _ 2 2 (by decide) (by decide), if_true, signed8]
    split <;> split <;> split <;> simp <;> omega
  · simp only [execute, hv, hop, finish]
    refine ⟨_, rfl, ?_⟩
    simp only [flagV_eq, bitOf_mask _ 2 (by decide), bitOf_setS_other _ 2 (by decide) (by decide),
      bitOf_setNZ_other _ _ 2 (by decide) (by decide),
      bitOf_ite_flag _ _ 2 2 (by decide) (by decide), if_true, signed8, toU8]
    split <;> split <;> split <;> simp <;> omega

/-! ## Branches in `execute` -/

theorem shl8_or (a b : Nat) (hb : b < 256) : (a <<< 8) ||| b = a * 256 + b := by
  have h := @Nat.mul_add_lt_is_or 8 b (by simpa using hb) a
  rw [Nat.shiftLeft_eq]
  have e : a * 2 ^ 8 = 2 ^ 8 * a := Nat.mul_comm _ _
  rw [e, ← h]
  norm_num
  ring

theorem immOf_eq (st : PipelineStage) (h : st.imm < 64) :
    immOf st = if st.imm < 32 then (st.imm : Int) else (st.imm : Int) - 64 := by
  have key : ∀ i < 64,
      (if i &&& 0x20 ≠ 0 then toI8 ((i ||| 0xC0 : Nat) : Int) else toI8 (i : Int)) =
        if i < 32 then (i : Int) else (i : Int) - 64 := by decide
  exact key st.imm h

theorem immOf_bounds (st : PipelineStage) : -128 ≤ immOf st ∧ immOf st ≤ 127 := by
  unfold immOf toI8
  split <;> split <;> omega

/-- C9. A valid BR in the Execute slot with 8-bit operand snapshots is a taken
branch for all operand values, its target is `op1 * 256 + op2`; when the target
is below `program_size`, `execute` returns with PC equal to the target and the
pending-flush flag set, the register file and the data memory untouched, and
otherwise it is fatal. -/
theorem execute_br (st : PipelineStage) (m : Machine)
    (hv : st.valid = true) (hop : st.opcode = 7)
    (h1 : st.r1_val < 256) (h2 : st.r2_val < 256) :
    takenBranch st = true ∧ branchTarget st = st.r1_val * 256 + st.r2_val ∧
      if st.r1_val * 256 + st.r2_val < m.program_size then
        ∃ m1, execute st m = some m1 ∧ m1.PC = st.r1_val * 256 + st.r2_val ∧
          m1.flush = true ∧ m1.registers = m.registers ∧ m1.data_mem = m.data_mem
      else execute st m = none := by
  have e : ((st.r1_val <<< 8) ||| st.r2_val) % 65536 = st.r1_val * 256 + st.r2_val := by
    rw [shl8_or _ _ h2]; omega
  refine ⟨by simp [takenBranch, hop], by simp [branchTarget, hop, e], ?_⟩
  simp only [execute, hv, hop, finish, e]
  by_cases h : st.r1_val * 256 + st.r2_val < m.program_size
  · have h' : ¬ st.r1_val * 256 + st.r2_val ≥ m.program_size := by omega
    simp [h, h']
  · have h' : st.r1_val * 256 + st.r2_val ≥ m.program_size := by omega
    simp [h, h']

/-- C10. `execute` is fatal exactly when the slot is valid and holds a taken
branch (BR, or BEQZ whose operand-1 snapshot is 0) whose 16-bit target is at least
`program_size`. In particular, with at most 1024 instructions loaded, a taken
BEQZ whose signed target `fetch-PC + 1 + imm` is negative has the target wrapped
by `2^16` and is fatal. -/
theorem execute_fatal_iff (st : PipelineStage) (m : Machine) :
    (execute st m = none ↔
      st.valid = true ∧ takenBranch st = true ∧ branchTarget st ≥ m.program_size) ∧
    (st.valid = true → st.opcode = 4 → st.r1_val = 0 → m.program_size ≤ 1024 →
      (st.addr : Int) + 1 + immOf st < 0 →
      (branchTarget st : Int) = (st.addr : Int) + 1 + immOf st + 65536 ∧
        execute st m = none) := by
  have hA : execute st m = none ↔
      st.valid = true ∧ takenBranch st = true ∧ branchTarget st ≥ m.program_size := by
    by_cases hv : st.valid = true
    · obtain ⟨ins, v, op, r1, r2, im, a, b, ad⟩ := st
      simp only at hv
      subst hv
      match op with
      | 0 | 1 | 2 | 3 | 5 | 6 | 8 | 9 | 10 | 11 =>
        simp [execute, takenBranch, finish]
      | 4 =>
        by_cases ha : a = 0 <;> simp [execute, takenBranch, branchTarget, finish, ha]
      | 7 => simp [execute, takenBranch, branchTarget, finish]
      | n + 12 => simp [execute, takenBranch, finish]
    · simp [execute, hv]
  refine ⟨hA, ?_⟩
  intro hv hop hz hps hneg
  have hb := immOf_bounds st
  have ht : (branchTarget st : Int) = (st.addr : Int) + 1 + immOf st + 65536 := by
    rw [branchTarget, if_neg (by omega)]
    unfold toU16
    omega
  refine ⟨ht, hA.mpr ⟨hv, by simp [takenBranch, hop, hz], ?_⟩⟩
  omega

/-! ## Frame and invariants of one cycle -/

theorem mask_lt (s : Nat) : (s &&& 0x1F) % 256 < 32 := by
  have h : s &&& 0x1F ≤ 0x1F := Nat.and_le_right
  omega

theorem mask_id (s : Nat) (h : s < 32) : (s &&& 0x1F) % 256 = s := by
  have e : (0x1F : Nat) = 2 ^ 5 - 1 := by norm_num
  rw [e, Nat.and_pow_two_sub_one_eq_mod]
  omega

theorem finish_frame (m0 m m1 : Machine) (b : Bool) (t : Nat)
    (h : finish m b t = some m1) (h0 : m.IF = m0.IF ∧ m.ID = m0.ID ∧ m.EX = m0.EX ∧
      m.instr_mem = m0.instr_mem ∧ m.program_size = m0.program_size ∧
      m.fetched_all = m0.fetched_all ∧ m.cycle = m0.cycle) :
    ExecFrame m0 m1 := by
  obtain ⟨a1, a2, a3, a4, a5, a6, a7⟩ := h0
  unfold finish at h
  split at h
  · split at h
    · exact absurd h (by simp)
    · injection h with h
      subst h
      exact ⟨a1, a2, a3, a4, a5, a6, a7, fun _ => mask_lt _⟩
  · injection h with h
    subst h
    exact ⟨a1, a2, a3, a4, a5, a6, a7, fun _ => mask_lt _⟩

theorem execute_frame (st : PipelineStage) (m m1 : Machine) (h : execute st m = some m1) :
    ExecFrame m m1 := by
  unfold execute at h
  split at h
  · injection h with h
    subst h
    exact ⟨rfl, rfl, rfl, rfl, rfl, rfl, rfl, id⟩
  · simp only at h
    split at h <;> first
      | exact finish_frame m _ m1 _ _ h ⟨rfl, rfl, rfl, rfl, rfl, rfl, rfl⟩
      | (split at h <;> exact finish_frame m _ m1 _ _ h ⟨rfl, rfl, rfl, rfl, rfl, rfl, rfl⟩)

theorem decode_valid (regs : Nat → Nat) (st : PipelineStage) :
    (decode regs st).valid = st.valid := by
  unfold decode
  split <;> rfl

theorem decode_imm_lt (regs : Nat → Nat) (st : PipelineStage) (h : st.valid = true) :
    (decode regs st).imm < 64 := by
  simp only [decode, h]
  have : st.instruction &&& 0x3F ≤ 0x3F := Nat.and_le_right
  simp
  omega

theorem applyFlush_flush (m : Machine) : (applyFlush m).flush = false := by
  unfold applyFlush
  cases h : m.flush <;> simp [h]

theorem applyFlush_of_flush (m : Machine) (h : m.flush = true) :
    (applyFlush m).ID.valid = false ∧ (applyFlush m).IF.valid = false := by
  unfold applyFlush
  simp [h]

theorem applyFlush_fields (m : Machine) :
    (applyFlush m).SREG = m.SREG ∧ (applyFlush m).EX = m.EX ∧ (applyFlush m).PC = m.PC ∧
    (applyFlush m).registers = m.registers ∧ (applyFlush m).data_mem = m.data_mem ∧
    (applyFlush m).program_size = m.program_size ∧
    (applyFlush m).fetched_all = m.fetched_all ∧ (applyFlush m).instr_mem = m.instr_mem ∧
    (applyFlush m).cycle = m.cycle + 1 := by
  unfold applyFlush
  split <;> simp

theorem applyFlush_ID (m : Machine) (h : (applyFlush m).ID.valid = true) :
    (applyFlush m).ID = m.ID := by
  unfold applyFlush at h ⊢
  split
  · rename_i hf; simp [hf] at h
  · rfl

theorem advance_fields (m : Machine) :
    (advance m).SREG = m.SREG ∧ (advance m).EX = m.ID ∧
    (advance m).ID = decode m.registers m.IF ∧ (advance m).flush = m.flush ∧
    (advance m).registers = m.registers ∧ (advance m).data_mem = m.data_mem ∧
    (advance m).program_size = m.program_size ∧ (advance m).instr_mem = m.instr_mem ∧
    (advance m).cycle = m.cycle := by
  unfold advance
  simp only
  split <;> simp

theorem advance_fetch (m : Machine) (h1 : m.fetched_all = false)
    (h2 : m.PC < m.program_size) :
    advance m = { m with
      EX := m.ID, ID := decode m.registers m.IF,
      IF := { m.IF with instruction := m.instr_mem m.PC, addr := m.PC, valid := true },
      PC := (m.PC + 1) % 65536 } := by
  unfold advance
  simp [h1, h2]

theorem advance_nofetch (m : Machine)
    (h : m.fetched_all = true ∨ ¬ m.PC < m.program_size) :
    advance m = { m with
      EX := m.ID, ID := decode m.registers m.IF,
      IF := { m.IF with valid := false },
      fetched_all := if m.PC ≥ m.program_size then true else m.fetched_all } := by
  unfold advance
  rcases h with h | h
  · simp [h]
  · simp [h]

theorem cycleStep_inv (m m2 : Machine) (hi : TopInv m) (h : cycleStep m = some m2) :
    TopInv m2 := by
  unfold cycleStep at h
  split at h
  · exact absurd h (by simp)
  · rename_i m1 he
    injection h with h
    subst h
    have fr := execute_frame _ _ _ he
    have af := applyFlush_fields (advance m1)
    have ad := advance_fields m1
    refine ⟨applyFlush_flush _, ?_, ?_, ?_⟩
    · rw [af.1, ad.1]; exact fr.hsreg hi.hsreg
    · intro hv
      have e := applyFlush_ID _ hv
      rw [e] at hv ⊢
      rw [ad.2.2.1] at hv ⊢
      rw [decode_valid] at hv
      exact decode_imm_lt _ _ hv
    · rw [af.2.1, ad.2.1, fr.hID]; exact hi.hID

theorem iter_inv (P : Machine → Prop)
    (hstep : ∀ m m2, P m → cycleStep m = some m2 → P m2) :
    ∀ (n : Nat) (s m : Machine), P s → iter n s = some m → P m := by
  intro n
  induction n with
  | zero =>
    intro s m hs h
    simp only [iter] at h
    injection h with h
    exact h ▸ hs
  | succ n ih =>
    intro s m hs h
    simp only [iter] at h
    split at h
    · exact absurd h (by simp)
    · rename_i s1 hc
      exact ih s1 m (hstep s s1 hs hc) h

theorem prefetch_inv (im : Nat → Nat) (k : Nat) : TopInv (prefetch (initState im k)) := by
  unfold prefetch initState
  split <;> exact ⟨rfl, by simp, by simp [zeroStage], by simp [zeroStage]⟩

theorem reachable_inv (m : Machine) (h : Reachable m) : TopInv m := by
  obtain ⟨im, k, n, _, hn⟩ := h
  exact iter_inv TopInv cycleStep_inv n _ m (prefetch_inv im k) hn

/-! ## BEQZ -/

/-- C8. In every state of a run whose Execute slot holds a valid BEQZ, the
sign-extended 6-bit field `imm` lies in `[-32, 31]`. If the operand-1 snapshot
is 0 and the target `(fetch-PC + 1 + imm) mod 2^16` is below `program_size`,
`execute` sets PC to that target and requests the flush, and at the end of that
cycle the Decode slot and the Fetch slot are both invalid. If the operand-1
snapshot is nonzero, `execute` returns the machine unchanged (PC, pending-flush
flag, register file, data memory and status register included), and the cycle
invalidates no slot by a flush: it is the plain advance, the Decode slot keeping
the validity of the instruction that came from Fetch. -/
theorem beqz_cycle (m : Machine) (hr : Reachable m)
    (hv : m.EX.valid = true) (hop : m.EX.opcode = 4) :
    (-32 ≤ immOf m.EX ∧ immOf m.EX ≤ 31) ∧
    (m.EX.r1_val = 0 →
      ((m.EX.addr : Int) + 1 + immOf m.EX) % 65536 < (m.program_size : Int) →
      ∃ m1 m2, execute m.EX m = some m1 ∧
        (m1.PC : Int) = ((m.EX.addr : Int) + 1 + immOf m.EX) % 65536 ∧
        m1.flush = true ∧
        cycleStep m = some m2 ∧ m2.ID.valid = false ∧ m2.IF.valid = false) ∧
    (m.EX.r1_val ≠ 0 →
      execute m.EX m = some m ∧
      cycleStep m = some { advance m with cycle := m.cycle + 1 } ∧
      ∀ m2, cycleStep m = some m2 →
        m2.EX.valid = m.ID.valid ∧ m2.ID.valid = m.IF.valid ∧
        m2.IF.valid = decide (m.fetched_all = false ∧ m.PC < m.program_size)) := by
  have inv := reachable_inv m hr
  have himm := inv.hEX hv
  refine ⟨?_, ?_, ?_⟩
  · rw [immOf_eq _ himm]
    split <;> omega
  · intro hz hlt
    have hlt' : ¬ toU16 ((m.EX.addr : Int) + 1 + immOf m.EX) ≥ m.program_size := by
      unfold toU16; omega
    have he : execute m.EX m = some { m with
        PC := toU16 ((m.EX.addr : Int) + 1 + immOf m.EX), flush := true,
        SREG := (m.SREG &&& 0x1F) % 256 } := by
      simp only [execute, hv, hop, hz, finish]
      simp [hlt']
    obtain ⟨m1, he1, hpc, hfl⟩ : ∃ m1, execute m.EX m = some m1 ∧
        (m1.PC : Int) = ((m.EX.addr : Int) + 1 + immOf m.EX) % 65536 ∧ m1.flush = true :=
      ⟨_, he, by simp only [toU16]; omega, rfl⟩
    have hf : (advance m1).flush = true := by
      rw [(advance_fields m1).2.2.2.1]; exact hfl
    have hfx := applyFlush_of_flush _ hf
    exact ⟨m1, applyFlush (advance m1), he1, hpc, hfl, by simp only [cycleStep, he1],
      hfx.1, hfx.2⟩
  · intro hnz
    have he : execute m.EX m = some m := by
      simp only [execute, hv, hop, hnz, finish]
      simp [mask_id _ inv.hsreg]
    have hc : cycleStep m = some { advance m with cycle := m.cycle + 1 } := by
      simp only [cycleStep, he, applyFlush]
      have hf : (advance m).flush = false := by
        rw [(advance_fields m).2.2.2.1]; exact inv.hflush
      simp [hf, (advance_fields m).2.2.2.2.2.2.2.2]
    refine ⟨he, hc, ?_⟩
    intro m2 h2
    rw [hc] at h2
    injection h2 with h2
    subst h2
    refine ⟨?_, ?_, ?_⟩
    · simp [(advance_fields m).2.1]
    · simp [(advance_fields m).2.2.1, decode_valid]
    · simp only [advance]
      by_cases hf : m.fetched_all = true <;> by_cases hp : m.PC < m.program_size <;>
        simp [hf, hp]

/-! ## Runs without a taken branch -/

theorem iter_succ_right (n : Nat) (s : Machine) :
    iter (n + 1) s = (iter n s).bind cycleStep := by
  induction n generalizing s with
  | zero =>
    cases h : cycleStep s <;> simp [iter, h]
  | succ n ih =>
    rw [iter]
    cases h : cycleStep s with
    | none => simp [iter, h]
    | some s1 =>
      simp only []
      rw [ih s1]
      conv_rhs => rw [iter, h]

theorem execute_not_taken (st : PipelineStage) (m : Machine)
    (h : (st.valid && takenBranch st) = false) :
    ∃ m1, execute st m = some m1 ∧ m1.PC = m.PC ∧ m1.flush = m.flush := by
  by_cases hv : st.valid = true
  · obtain ⟨ins, v, op, r1, r2, im, a, b, ad⟩ := st
    simp only at hv
    subst hv
    match op with
    | 0 | 1 | 2 | 3 | 5 | 6 | 8 | 9 | 10 | 11 =>
      simp [execute, finish]
    | 4 =>
      have ha : ¬ a = 0 := by
        intro ha
        simp [takenBranch, ha] at h
      simp [execute, finish, ha]
    | 7 => simp [takenBranch] at h
    | n + 12 => simp [execute, finish]
  · simp [execute, hv]

theorem straight_prefetch (im : Nat → Nat) (k : Nat) (hk1 : 1 ≤ k) (hk : k ≤ 1024) :
    Straight k 0 (prefetch (initState im k)) := by
  have hpos : k > 0 := hk1
  simp only [prefetch, initState, hpos, if_true]
  refine ⟨rfl, rfl, ?_, ?_, ?_, ?_, ?_, rfl⟩
  · simp; omega
  · simp; omega
  · simp; omega
  · simp [zeroStage]
  · simp [zeroStage]

theorem straight_step (k j : Nat) (m : Machine) (hk : k ≤ 1024) (hs : Straight k j m)
    (hnt : (m.EX.valid && takenBranch m.EX) = false) :
    ∃ m2, cycleStep m = some m2 ∧ Straight k (j + 1) m2 := by
  obtain ⟨m1, he, hpc, hfl⟩ := execute_not_taken m.EX m hnt
  have fr := execute_frame _ _ _ he
  refine ⟨applyFlush (advance m1), by simp only [cycleStep, he], ?_⟩
  have hf : (advance m1).flush = false := by
    rw [(advance_fields m1).2.2.2.1, hfl]; exact hs.hflush
  have e : applyFlush (advance m1) = { advance m1 with cycle := (advance m1).cycle + 1 } := by
    simp [applyFlush, hf]
  rw [e]
  have hsz : m1.program_size = k := by rw [fr.hsize]; exact hs.hsize
  have hPC : m1.PC = min (j + 1) k := by rw [hpc]; exact hs.hPC
  have hall : m1.fetched_all = decide (k ≤ j) := by rw [fr.hall]; exact hs.hall
  have hIF : m1.IF.valid = decide (j < k) := by rw [fr.hIF]; exact hs.hIF
  have hID : m1.ID.valid = decide (1 ≤ j ∧ j ≤ k) := by rw [fr.hID]; exact hs.hID
  have hcy : m1.cycle = j + 1 := by rw [fr.hcycle]; exact hs.hcycle
  have hdv : (decode m1.registers m1.IF).valid = decide (j < k) := by
    rw [decode_valid]; exact hIF
  by_cases hfetch : j + 1 < k
  · have h1 : m1.fetched_all = false := by rw [hall]; simp; omega
    have h2 : m1.PC < m1.program_size := by rw [hPC, hsz]; omega
    rw [advance_fetch m1 h1 h2]
    refine ⟨hsz, hfl ▸ hs.hflush, ?_, ?_, ?_, ?_, ?_, ?_⟩
    · simp only [hPC]; omega
    · simp only [h1]; simp; omega
    · simp; omega
    · simp only [hdv]; simp; omega
    · simp only [hID]; simp
    · simp only [hcy]
  · have h1 : m1.fetched_all = true ∨ ¬ m1.PC < m1.program_size := by
      right; rw [hPC, hsz]; omega
    have h3 : m1.PC ≥ m1.program_size := by rw [hPC, hsz]; omega
    rw [advance_nofetch m1 h1]
    refine ⟨hsz, hfl ▸ hs.hflush, ?_, ?_, ?_, ?_, ?_, ?_⟩
    · simp only [hPC]; omega
    · simp [h3]; omega
    · simp; omega
    · simp only [hdv]; simp; omega
    · simp only [hID]; simp
    · simp only [hcy]

theorem noBranchTaken_head (s : Machine) (c : Nat) (h : noBranchTaken s (c + 1) = true) :
    (s.EX.valid && takenBranch s.EX) = false ∧
      ∀ s1, cycleStep s = some s1 → noBranchTaken s1 c = true := by
  rw [noBranchTaken] at h
  simp only [Bool.and_eq_true, Bool.not_eq_true'] at h
  refine ⟨h.1, ?_⟩
  intro s1 h1
  have h2 := h.2
  rw [h1] at h2
  exact h2

theorem straight_iter (im : Nat → Nat) (k : Nat) (hk1 : 1 ≤ k) (hk : k ≤ 1024)
    (hnb : noBranchTaken (prefetch (initState im k)) (k + 2) = true) :
    ∀ j, j ≤ k + 2 → ∃ mj, iter j (prefetch (initState im k)) = some mj ∧
      Straight k j mj ∧ noBranchTaken mj (k + 2 - j) = true := by
  intro j
  induction j with
  | zero =>
    intro _
    exact ⟨_, rfl, straight_prefetch im k hk1 hk, hnb⟩
  | succ j ih =>
    intro hj
    obtain ⟨mj, hit, hst, hn⟩ := ih (by omega)
    have e : k + 2 - j = (k + 2 - (j + 1)) + 1 := by omega
    rw [e] at hn
    obtain ⟨hnt, hrest⟩ := noBranchTaken_head _ _ hn
    obtain ⟨m2, hc, hst2⟩ := straight_step k j mj hk hst hnt
    refine ⟨m2, ?_, hst2, hrest m2 hc⟩
    rw [iter_succ_right, hit]
    exact hc

theorem straight_isDone (k j : Nat) (m : Machine) (hk1 : 1 ≤ k) (hs : Straight k j m) :
    isDone m = decide (k + 2 ≤ j) := by
  unfold isDone
  rw [hs.hall, hs.hIF, hs.hID, hs.hEX]
  by_cases h : k + 2 ≤ j
  · have a1 : k ≤ j := by omega
    have a2 : ¬ j < k := by omega
    have a3 : ¬ (1 ≤ j ∧ j ≤ k) := by omega
    have a4 : ¬ (2 ≤ j ∧ j ≤ k + 1) := by omega
    simp [h, a1, a2, a3, a4]
  · simp only [h, decide_False]
    by_cases b1 : k ≤ j
    · by_cases b2 : j ≤ k
      · have a3 : (1 ≤ j ∧ j ≤ k) := by omega
        simp [a3]
      · have a4 : (2 ≤ j ∧ j ≤ k + 1) := by omega
        simp [a4]
    · simp [b1]

theorem iter_one (s : Machine) : iter 1 s = cycleStep s := by
  cases h : cycleStep s <;> simp [iter, h]

theorem loop_of_iter : ∀ (N : Nat) (s mN : Machine), 1 ≤ N → iter N s = some mN →
    isDone mN = true →
    (∀ j, 1 ≤ j → j < N → ∀ mj, iter j s = some mj → isDone mj = false) →
    ∀ fuel, N ≤ fuel → loop fuel s = .finished mN := by
  intro N
  induction N with
  | zero => intro s mN h; omega
  | succ N ih =>
    intro s mN _ hit hdone hnot fuel hfuel
    obtain ⟨f, rfl⟩ : ∃ f, fuel = f + 1 := ⟨fuel - 1, by omega⟩
    rw [iter] at hit
    cases hc : cycleStep s with
    | none => rw [hc] at hit; exact absurd hit (by simp)
    | some s1 =>
      rw [hc] at hit
      simp only at hit
      rw [loop, hc]
      simp only
      by_cases hN : N = 0
      · subst hN
        simp only [iter] at hit
        injection hit with hit
        subst hit
        simp [hdone]
      · have h1 : isDone s1 = false :=
          hnot 1 (by omega) (by omega) s1 (by rw [iter_one]; exact hc)
        simp only [h1]
        refine ih s1 mN (by omega) hit hdone ?_ f (by omega)
        intro j hj1 hjN mj hmj
        refine hnot (j + 1) (by omega) (by omega) mj ?_
        rw [iter, hc]
        exact hmj

/-- C4 (amended). For every `k` with `1 ≤ k ≤ 1024` and every program of `k`
instructions in whose run no branch is taken, the simulation loop ends after
exactly `k + 2` cycles (the cycle counter, which starts at 1, is `k + 3`; the
loop is not done after any smaller number of cycles), and at that point the
Fetch, Decode and Execute slots are all invalid. -/
theorem straight_line_run (im : Nat → Nat) (k fuel : Nat) (hk1 : 1 ≤ k) (hk : k ≤ 1024)
    (hnb : noBranchTaken (prefetch (initState im k)) (k + 2) = true)
    (hf : k + 2 ≤ fuel) :
    ∃ m, simulate fuel (initState im k) = .finished m ∧
      iter (k + 2) (prefetch (initState im k)) = some m ∧
      (∀ j, 1 ≤ j → j < k + 2 → ∀ mj,
        iter j (prefetch (initState im k)) = some mj → isDone mj = false) ∧
      m.cycle = k + 3 ∧ m.IF.valid = false ∧ m.ID.valid = false ∧ m.EX.valid = false := by
  have H := straight_iter im k hk1 hk hnb
  obtain ⟨m, hit, hst, _⟩ := H (k + 2) (Nat.le_refl _)
  have hnot : ∀ j, 1 ≤ j → j < k + 2 → ∀ mj,
      iter j (prefetch (initState im k)) = some mj → isDone mj = false := by
    intro j _ hj mj hmj
    obtain ⟨mj2, hit2, hst2, _⟩ := H j (by omega)
    rw [hit2] at hmj
    injection hmj with hmj
    subst hmj
    rw [straight_isDone k j _ hk1 hst2]
    simp; omega
  have hdone : isDone m = true := by
    rw [straight_isDone k _ _ hk1 hst]; simp
  refine ⟨m, loop_of_iter (k + 2) _ m (by omega) hit hdone hnot fuel hf, hit, hnot,
    hst.hcycle, ?_, ?_, ?_⟩
  · rw [hst.hIF]; simp
  · rw [hst.hID]; simp
  · rw [hst.hEX]; simp

/-! ## Evaluations and instances -/

/-- C1 (the code on the claim's program). On `MOVI R0 0; BEQZ R0 2; MOVI R0 9;
MOVI R1 1; MOVI R2 2` the branch at index 1 is taken with target 4 in range; in
the next cycle the Execute slot holds the valid instruction of index 2, and the
run ends with R0 = 9, while the instructions of index 3 and of the target index 4
never execute (R1 = R2 = 0). -/
theorem branch_shadow_executes :
    ((stateAfter 3 progBranch).map fun m =>
        (m.EX.valid, m.EX.opcode, m.EX.addr, m.EX.r1_val, branchTarget m.EX, m.program_size)) =
      some (true, 4, 1, 0, 4, 5) ∧
    ((stateAfter 4 progBranch).map fun m => (m.EX.valid, m.EX.addr, m.EX.instruction)) =
      some (true, 2, 12297) ∧
    ((main 100 progBranch).final.map fun m =>
        (m.registers 0, m.registers 1, m.registers 2)) = some (9, 0, 0) := by
  decide

/-- C2 (the code on a concrete run). On `progTarget` the branch at index 1 commits
in cycle 4 with target 4 in range. At the end of that cycle PC is 5 and the Fetch
slot, holding the word of index 4, is invalid; the fetch of the next cycle loads
the word of index 5 with fetch-PC 5, and the target instruction `MOVI R2 2` never
executes (R2 = 0 at the end, R3 = 3). -/
theorem branch_target_skipped :
    ((stateAfter 3 progTarget).map fun m =>
        (m.EX.valid, m.EX.opcode, m.EX.r1_val, branchTarget m.EX, m.program_size)) =
      some (true, 4, 0, 4, 7) ∧
    ((stateAfter 4 progTarget).map fun m =>
        (m.PC, m.IF.valid, m.IF.addr, m.IF.instruction == m.instr_mem 4)) =
      some (5, false, 4, true) ∧
    ((stateAfter 5 progTarget).map fun m =>
        (m.IF.valid, m.IF.addr, m.IF.instruction == m.instr_mem 5, m.ID.valid, m.EX.valid)) =
      some (true, 5, true, false, false) ∧
    ((main 100 progTarget).final.map fun m => (m.registers 2, m.registers 3)) =
      some (0, 3) := by
  decide

/-- C3 (as stated, refuted). The run of `MOVI R0 5; MOVI R1 3; ADD R0 R1` does
not finish with R0 = 8. -/
theorem add_program_not_eight :
    ¬ ((main 100 progAdd).final.map fun m => m.registers 0) = some 8 := by
  decide

/-- C3 (amended). The loader encodes `MOVI R0 5; MOVI R1 3; ADD R0 R1` as the
words 0x3005, 0x3043, 0x0001, and the run from the all-zero state drains with
R0 = 5, R1 = 3, Zero = 0 and Negative = 0: the ADD took its operand snapshots
(5 and 0) one cycle before `MOVI R1 3` wrote R1. -/
theorem add_program_final :
    loadProgram progAdd = some [0x3005, 0x3043, 0x0001] ∧
    ((stateAfter 4 progAdd).map fun m => (m.EX.valid, m.EX.opcode, m.EX.r1_val, m.EX.r2_val)) =
      some (true, 0, 5, 0) ∧
    ((main 100 progAdd).final.map fun m =>
        (m.registers 0, m.registers 1, flagZ m.SREG, flagN m.SREG)) = some (5, 3, 0, 0) := by
  decide

/-- C4 (as stated, refuted at `k = 0`). With no instruction loaded no branch is
taken, and the loop ends after one cycle (cycle counter 2), not after `0 + 2`. -/
theorem empty_program_one_cycle :
    noBranchTaken (prefetch (initState (fun _ => 0) 0)) (0 + 2) = true ∧
    ((simulate (0 + 2) (initState (fun _ => 0) 0)).final.map fun m => m.cycle) = some 2 ∧
    ¬ ((simulate (0 + 2) (initState (fun _ => 0) 0)).final.map fun m => m.cycle) =
      some (1 + (0 + 2)) := by
  decide

/-- C4 (instance): the three-instruction program of `progAdd` runs for 5 cycles. -/
theorem straight_line_run_witness :
    (1 ≤ 3 ∧ 3 ≤ 1024 ∧
      noBranchTaken (prefetch (initState (fun i => [0x3005, 0x3043, 0x0001].getD i 0) 3))
        (3 + 2) = true ∧ 3 + 2 ≤ 10) ∧
    ∃ m, simulate 10 (initState (fun i => [0x3005, 0x3043, 0x0001].getD i 0) 3) = .finished m ∧
      iter (3 + 2) (prefetch (initState (fun i => [0x3005, 0x3043, 0x0001].getD i 0) 3)) =
        some m ∧
      (∀ j, 1 ≤ j → j < 3 + 2 → ∀ mj,
        iter j (prefetch (initState (fun i => [0x3005, 0x3043, 0x0001].getD i 0) 3)) = some mj →
          isDone mj = false) ∧
      m.cycle = 3 + 3 ∧ m.IF.valid = false ∧ m.ID.valid = false ∧ m.EX.valid = false :=
  ⟨⟨by decide, by decide, by decide, by decide⟩,
    straight_line_run (fun i => [0x3005, 0x3043, 0x0001].getD i 0) 3 10
      (by decide) (by decide) (by decide) (by decide)⟩

/-- C5 (instance): ADD of 200 and 100 from the initial state. -/
theorem execute_add_sub_result_flags_witness :
    (addSlot.valid = true ∧ (addSlot.opcode = 0 ∨ addSlot.opcode = 1)) ∧
    ∃ m1, execute addSlot (initState (fun _ => 0) 0) = some m1 ∧
      ((m1.registers addSlot.r1 : Int) =
        if addSlot.opcode = 0 then ((addSlot.r1_val : Int) + (addSlot.r2_val : Int)) % 256
        else ((addSlot.r1_val : Int) - (addSlot.r2_val : Int)) % 256) ∧
      (flagZ m1.SREG = 1 ↔ m1.registers addSlot.r1 = 0) ∧
      (flagN m1.SREG = 1 ↔ (m1.registers addSlot.r1).testBit 7 = true) ∧
      flagS m1.SREG = flagN m1.SREG ^^^ flagV m1.SREG :=
  ⟨⟨rfl, Or.inl rfl⟩,
    execute_add_sub_result_flags addSlot (initState (fun _ => 0) 0) rfl (Or.inl rfl)⟩

/-- C6 (instance): ADD of 200 and 100 sets the Carry bit. -/
theorem execute_add_carry_witness :
    (addSlot.valid = true ∧ addSlot.opcode = 0 ∧ addSlot.r1_val < 256 ∧ addSlot.r2_val < 256) ∧
    ∃ m1, execute addSlot (initState (fun _ => 0) 0) = some m1 ∧
      (flagC m1.SREG = 1 ↔ addSlot.r1_val + addSlot.r2_val > 255) :=
  ⟨⟨rfl, rfl, by decide, by decide⟩,
    execute_add_carry addSlot (initState (fun _ => 0) 0) rfl rfl (by decide) (by decide)⟩

/-- C7 (instance): SUB of 100 and 200, that is 100 - (-56), overflows. -/
theorem execute_add_sub_overflow_witness :
    (subSlot.valid = true ∧ (subSlot.opcode = 0 ∨ subSlot.opcode = 1) ∧
      subSlot.r1_val < 256 ∧ subSlot.r2_val < 256) ∧
    ∃ m1, execute subSlot (initState (fun _ => 0) 0) = some m1 ∧
      (flagV m1.SREG = 1 ↔
        if subSlot.opcode = 0 then
          (signed8 subSlot.r1_val + signed8 subSlot.r2_val < -128 ∨
            127 < signed8 subSlot.r1_val + signed8 subSlot.r2_val)
        else
          (signed8 subSlot.r1_val - signed8 subSlot.r2_val < -128 ∨
            127 < signed8 subSlot.r1_val - signed8 subSlot.r2_val)) :=
  ⟨⟨rfl, Or.inr rfl, by decide, by decide⟩,
    execute_add_sub_overflow subSlot (initState (fun _ => 0) 0) rfl (Or.inr rfl)
      (by decide) (by decide)⟩

theorem load_progTwoBeqz : loadProgram progTwoBeqz = some wordsTwoBeqz := by
  decide

theorem twoBeqz_reachable (n : Nat) (h : (iter n (prefetch (initState
    (fun i => wordsTwoBeqz.getD i 0) 7))).isSome = true) : Reachable (twoBeqzState n) := by
  refine ⟨fun i => wordsTwoBeqz.getD i 0, 7, n, by decide, ?_⟩
  unfold twoBeqzState
  cases hi : iter n (prefetch (initState (fun i => wordsTwoBeqz.getD i 0) 7)) with
  | none => rw [hi] at h; exact absurd h (by simp)
  | some m => rfl

/-- C8 (instances): after 5 cycles on `wordsTwoBeqz` the Execute slot holds the
BEQZ of index 3 with snapshot 0 and target 5, after 4 cycles the BEQZ of index 2
with snapshot 1. -/
theorem beqz_cycle_witness :
    (∃ m1 m2, execute (twoBeqzState 5).EX (twoBeqzState 5) = some m1 ∧
        (m1.PC : Int) =
          (((twoBeqzState 5).EX.addr : Int) + 1 + immOf (twoBeqzState 5).EX) % 65536 ∧
        m1.flush = true ∧
        cycleStep (twoBeqzState 5) = some m2 ∧ m2.ID.valid = false ∧ m2.IF.valid = false) ∧
    (execute (twoBeqzState 4).EX (twoBeqzState 4) = some (twoBeqzState 4) ∧
      cycleStep (twoBeqzState 4) =
        some { advance (twoBeqzState 4) with cycle := (twoBeqzState 4).cycle + 1 } ∧
      ∀ m2, cycleStep (twoBeqzState 4) = some m2 →
        m2.EX.valid = (twoBeqzState 4).ID.valid ∧ m2.ID.valid = (twoBeqzState 4).IF.valid ∧
        m2.IF.valid = decide ((twoBeqzState 4).fetched_all = false ∧
          (twoBeqzState 4).PC < (twoBeqzState 4).program_size)) :=
  ⟨(beqz_cycle (twoBeqzState 5) (twoBeqz_reachable 5 (by decide)) (by decide)
      (by decide)).2.1 (by decide) (by decide),
   (beqz_cycle (twoBeqzState 4) (twoBeqz_reachable 4 (by decide)) (by decide)
      (by decide)).2.2 (by decide)⟩

/-- C9 (instance): BR with snapshots 0 and 3 on a machine with 5 instructions. -/
theorem execute_br_witness :
    (brSlot.valid = true ∧ brSlot.opcode = 7 ∧ brSlot.r1_val < 256 ∧ brSlot.r2_val < 256) ∧
    (takenBranch brSlot = true ∧ branchTarget brSlot = brSlot.r1_val * 256 + brSlot.r2_val ∧
      if brSlot.r1_val * 256 + brSlot.r2_val < (initState (fun _ => 0) 5).program_size then
        ∃ m1, execute brSlot (initState (fun _ => 0) 5) = some m1 ∧
          m1.PC = brSlot.r1_val * 256 + brSlot.r2_val ∧
          m1.flush = true ∧ m1.registers = (initState (fun _ => 0) 5).registers ∧
          m1.data_mem = (initState (fun _ => 0) 5).data_mem
      else execute brSlot (initState (fun _ => 0) 5) = none) :=
  ⟨⟨rfl, rfl, by decide, by decide⟩,
    execute_br brSlot (initState (fun _ => 0) 5) rfl rfl (by decide) (by decide)⟩

/-- C10 (instance): a taken BEQZ at address 2 with immediate -4 has the signed
target -1, wrapped to 65535, and is fatal on a machine with 5 instructions. -/
theorem execute_fatal_iff_witness :
    (beqzBackSlot.valid = true ∧ beqzBackSlot.opcode = 4 ∧ beqzBackSlot.r1_val = 0 ∧
      (initState (fun _ => 0) 5).program_size ≤ 1024 ∧
      (beqzBackSlot.addr : Int) + 1 + immOf beqzBackSlot < 0) ∧
    ((branchTarget beqzBackSlot : Int) =
        (beqzBackSlot.addr : Int) + 1 + immOf beqzBackSlot + 65536 ∧
      execute beqzBackSlot (initState (fun _ => 0) 5) = none) :=
  ⟨⟨rfl, rfl, rfl, by decide, by decide⟩,
    (execute_fatal_iff beqzBackSlot (initState (fun _ => 0) 5)).2 rfl rfl rfl
      (by decide) (by decide)⟩

/-! ## Data memory -/

theorem memAddrOf_lt (st : PipelineStage) : memAddrOf st < 64 := by
  unfold memAddrOf
  have h : st.imm &&& 0x3F ≤ 0x3F := Nat.and_le_right
  omega

/-- Effect of `execute` on the register file and the data memory, by opcode. -/
theorem execute_effect (st : PipelineStage) (m m1 : Machine) (h : execute st m = some m1) :
    (st.opcode ≠ 11 → m1.data_mem = m.data_mem) ∧
    (st.valid = true → st.opcode = 11 →
      m1.data_mem = store m.data_mem (memAddrOf st) st.r1_val ∧ m1.registers = m.registers) ∧
    (st.valid = true → st.opcode = 10 →
      m1.registers = store m.registers st.r1 (m.data_mem (memAddrOf st))) ∧
    (∀ i, 64 ≤ i → m1.data_mem i = m.data_mem i) := by
  by_cases hv : st.valid = true
  · obtain ⟨ins, v, op, r1, r2, im, a, b, ad⟩ := st
    simp only at hv
    subst hv
    match op with
    | 0 | 1 | 2 | 3 | 5 | 6 | 8 | 9 | 10 =>
      simp [execute, finish] at h
      subst h
      simp
    | 11 =>
      simp [execute, finish] at h
      subst h
      have hl := memAddrOf_lt ⟨ins, true, 11, r1, r2, im, a, b, ad⟩
      simp only [ne_eq, not_true_eq_false, false_implies, true_implies, true_and]
      refine ⟨by simp, ?_⟩
      intro i hi
      simp only [store]
      rw [if_neg (by omega)]
    | 4 =>
      simp only [execute, finish] at h
      simp at h
      split at h
      · split at h
        · exact absurd h (by simp)
        · injection h with h; subst h; simp
      · injection h with h; subst h; simp
    | 7 =>
      simp only [execute, finish] at h
      simp at h
      obtain ⟨_, h⟩ := h
      subst h
      simp
    | n + 12 =>
      simp [execute, finish] at h
      subst h
      simp
  · simp [execute, hv] at h
    subst h
    simp [hv]

theorem decode_fields (regs : Nat → Nat) (s0 : PipelineStage) (hv : s0.valid = true) :
    (decode regs s0).valid = true ∧
    (decode regs s0).instruction = s0.instruction ∧
    (decode regs s0).addr = s0.addr ∧
    (decode regs s0).opcode = (s0.instruction >>> 12) &&& 0xF ∧
    (decode regs s0).r1 = (s0.instruction >>> 6) &&& 0x3F ∧
    (decode regs s0).r2 = s0.instruction &&& 0x3F ∧
    (decode regs s0).imm = s0.instruction &&& 0x3F ∧
    (decode regs s0).r1_val = regs ((s0.instruction >>> 6) &&& 0x3F) ∧
    (decode regs s0).r2_val =
      if (s0.instruction >>> 12) &&& 0xF ≤ 2 ∨ (s0.instruction >>> 12) &&& 0xF = 6 ∨
          (s0.instruction >>> 12) &&& 0xF = 7
      then regs (s0.instruction &&& 0x3F) else 0 := by
  simp [decode, hv]

theorem and_63_lt (w : Nat) : w &&& 0x3F < 64 := by
  have h : w &&& 0x3F ≤ 0x3F := Nat.and_le_right
  omega

theorem and_63_idem (w : Nat) : ((w &&& 0x3F) &&& 0x3F) % 256 = w &&& 0x3F := by
  have h := and_63_lt w
  rw [Nat.and_assoc, Nat.and_self]
  omega

theorem data_mem_high_step (m m2 : Machine) (h : cycleStep m = some m2)
    (hm : ∀ i, 64 ≤ i → m.data_mem i = 0) : ∀ i, 64 ≤ i → m2.data_mem i = 0 := by
  unfold cycleStep at h
  split at h
  · exact absurd h (by simp)
  · rename_i m1 he
    injection h with h
    subst h
    intro i hi
    rw [(applyFlush_fields _).2.2.2.2.1, (advance_fields _).2.2.2.2.2.1,
      (execute_effect _ _ _ he).2.2.2 i hi]
    exact hm i hi

theorem data_mem_high_prefetch (im : Nat → Nat) (k : Nat) :
    ∀ i, 64 ≤ i → (prefetch (initState im k)).data_mem i = 0 := by
  intro i _
  unfold prefetch initState
  split <;> rfl

/-- C11. For every instruction word in a valid slot, decoded against any register
file: field2 is below 64; executing STR (opcode 11) returns with the operand-1
snapshot in `data_mem[field2]`, every other memory cell and the whole register
file unchanged; executing LDR (opcode 10) returns with `registers[field1]` equal to
`data_mem[field2]`, every other register and the whole data memory unchanged; no
opcode other than STR changes the data memory. Consequently every data-memory
cell of index 64 or more is 0 in every state of every run. -/
theorem str_ldr_data_memory (regs : Nat → Nat) (s0 : PipelineStage) (m : Machine)
    (hv : s0.valid = true) :
    s0.instruction &&& 0x3F < 64 ∧
    ((decode regs s0).opcode = 11 →
      ∃ m1, execute (decode regs s0) m = some m1 ∧
        m1.data_mem (s0.instruction &&& 0x3F) = (decode regs s0).r1_val ∧
        (∀ j, j ≠ s0.instruction &&& 0x3F → m1.data_mem j = m.data_mem j) ∧
        m1.registers = m.registers) ∧
    ((decode regs s0).opcode = 10 →
      ∃ m1, execute (decode regs s0) m = some m1 ∧
        m1.registers ((s0.instruction >>> 6) &&& 0x3F) =
          m.data_mem (s0.instruction &&& 0x3F) ∧
        (∀ j, j ≠ (s0.instruction >>> 6) &&& 0x3F → m1.registers j = m.registers j) ∧
        m1.data_mem = m.data_mem) ∧
    ((decode regs s0).opcode ≠ 11 →
      ∀ m1, execute (decode regs s0) m = some m1 → m1.data_mem = m.data_mem) ∧
    (∀ s, Reachable s → ∀ i, 64 ≤ i → s.data_mem i = 0) := by
  obtain ⟨dv, _, _, dop, dr1, _, dimm, _, _⟩ := decode_fields regs s0 hv
  have hma : memAddrOf (decode regs s0) = s0.instruction &&& 0x3F := by
    unfold memAddrOf; rw [dimm]; exact and_63_idem _
  refine ⟨and_63_lt _, ?_, ?_, ?_, ?_⟩
  · intro hop
    have he : ∃ m1, execute (decode regs s0) m = some m1 := by
      simp [execute, dv, hop, finish]
    obtain ⟨m1, he⟩ := he
    obtain ⟨hd, hr⟩ := (execute_effect _ _ _ he).2.1 dv hop
    rw [hma] at hd
    refine ⟨m1, he, ?_, ?_, hr⟩
    · rw [hd]; simp [store]
    · intro j hj; rw [hd]; simp [store, hj]
  · intro hop
    have he : ∃ m1, execute (decode regs s0) m = some m1 := by
      simp [execute, dv, hop, finish]
    obtain ⟨m1, he⟩ := he
    have hr := (execute_effect _ _ _ he).2.2.1 dv hop
    rw [hma, dr1] at hr
    refine ⟨m1, he, ?_, ?_, (execute_effect _ _ _ he).1 (by rw [hop]; decide)⟩
    · rw [hr]; simp [store]
    · intro j hj; rw [hr]; simp [store, hj]
  · intro hop m1 he
    exact (execute_effect _ _ _ he).1 hop
  · intro s hs
    obtain ⟨im, k, n, _, hn⟩ := hs
    exact iter_inv (fun x => ∀ i, 64 ≤ i → x.data_mem i = 0)
      (fun a b ha hab => data_mem_high_step a b hab ha) n _ s
      (data_mem_high_prefetch im k) hn

/-! ## Frame of the status register -/

set_option maxRecDepth 20000 in
theorem byte_high_clear : ∀ s < 256, s &&& 0xE0 = 0 → s < 32 := by
  decide

theorem lt_32_high_clear : ∀ s < 32, s &&& 0xE0 = 0 := by
  decide

theorem bitOf_high_zero (s j : Nat) (hs : s < 32) (hj : 5 ≤ j) : bitOf s j = 0 := by
  rw [← mask_id s hs]
  exact bitOf_mask_high s j hj

theorem bitOf_setNZ_mask (s r j : Nat) (hs : s < 32) (h0 : j ≠ 0) (h1 : j ≠ 1) :
    bitOf ((setNZ s r &&& 0x1F) % 256) j = bitOf s j := by
  by_cases hj : j < 5
  · rw [bitOf_mask _ j hj, bitOf_setNZ_other s r j (by omega) (by omega)]
  · rw [bitOf_mask_high _ j (by omega), bitOf_high_zero s j hs (by omega)]

theorem execute_eq_none_iff (st : PipelineStage) (m : Machine) :
    execute st m = none ↔
      st.valid = true ∧ takenBranch st = true ∧ branchTarget st ≥ m.program_size := by
  by_cases hv : st.valid = true
  · obtain ⟨ins, v, op, r1, r2, im, a, b, ad⟩ := st
    simp only at hv
    subst hv
    match op with
    | 0 | 1 | 2 | 3 | 5 | 6 | 8 | 9 | 10 | 11 =>
      simp [execute, takenBranch, finish]
    | 4 =>
      by_cases ha : a = 0 <;> simp [execute, takenBranch, branchTarget, finish, ha]
    | 7 => simp [execute, takenBranch, branchTarget, finish]
    | n + 12 => simp [execute, takenBranch, finish]
  · simp [execute, hv]

/-- The status byte that `execute` leaves on a valid slot, by opcode. -/
theorem execute_sreg (st : PipelineStage) (m m1 : Machine) (hv : st.valid = true)
    (h : execute st m = some m1) :
    (∃ x, m1.SREG = (x &&& 0x1F) % 256) ∧
    ((st.opcode = 3 ∨ st.opcode = 4 ∨ st.opcode = 7 ∨ st.opcode = 10 ∨ st.opcode = 11 ∨
        12 ≤ st.opcode) → m1.SREG = (m.SREG &&& 0x1F) % 256) ∧
    ((st.opcode = 2 ∨ st.opcode = 5 ∨ st.opcode = 6 ∨ st.opcode = 8 ∨ st.opcode = 9) →
      ∃ r, m1.SREG = (setNZ m.SREG r &&& 0x1F) % 256) ∧
    (st.opcode = 1 → flagC m1.SREG = flagC m.SREG) := by
  obtain ⟨ins, v, op, r1, r2, im, a, b, ad⟩ := st
  simp only at hv
  subst hv
  match op with
  | 0 =>
    simp [execute, finish] at h
    subst h
    exact ⟨⟨_, rfl⟩, by simp, by simp, by simp⟩
  | 1 =>
    simp [execute, finish] at h
    subst h
    refine ⟨⟨_, rfl⟩, by simp, by simp, ?_⟩
    intro _
    simp only [flagC_eq, bitOf_mask _ 3 (by decide), bitOf_setS_other _ 3 (by decide) (by decide),
      bitOf_setNZ_other _ _ 3 (by decide) (by decide),
      bitOf_ite_flag _ _ 2 3 (by decide) (by decide)]
    simp
  | 2 | 5 | 6 | 8 | 9 =>
    simp [execute, finish] at h
    subst h
    exact ⟨⟨_, rfl⟩, by simp, fun _ => ⟨_, rfl⟩, by simp⟩
  | 3 | 10 | 11 =>
    simp [execute, finish] at h
    subst h
    exact ⟨⟨_, rfl⟩, fun _ => rfl, by simp, by simp⟩
  | 4 =>
    simp only [execute, finish] at h
    simp at h
    split at h
    · split at h
      · exact absurd h (by simp)
      · injection h with h; subst h
        exact ⟨⟨_, rfl⟩, fun _ => rfl, by simp, by simp⟩
    · injection h with h; subst h
      exact ⟨⟨_, rfl⟩, fun _ => rfl, by simp, by simp⟩
  | 7 =>
    simp only [execute, finish] at h
    simp at h
    obtain ⟨_, h⟩ := h
    subst h
    exact ⟨⟨_, rfl⟩, fun _ => rfl, by simp, by simp⟩
  | n + 12 =>
    simp [execute, finish] at h
    subst h
    exact ⟨⟨_, rfl⟩, fun _ => rfl, by simp, by simp⟩

/-- C12. From a state whose status byte has bits 5-7 equal to 0, `execute` on a
valid slot that does not hit the fatal branch exit returns a state whose status
byte again has bits 5-7 equal to 0, and: for MOVI, BEQZ, BR, LDR, STR (and the
unassigned opcodes) the status byte is unchanged; for MUL, ANDI, EOR, SAL, SAR
every bit other than Zero (bit 0) and Negative (bit 1) is unchanged; for SUB the
Carry bit is unchanged. -/
theorem execute_sreg_frame (st : PipelineStage) (m : Machine)
    (hb : m.SREG < 256) (hs : m.SREG &&& 0xE0 = 0) (hv : st.valid = true)
    (hnf : ¬ (takenBranch st = true ∧ branchTarget st ≥ m.program_size)) :
    ∃ m1, execute st m = some m1 ∧ m1.SREG < 256 ∧ m1.SREG &&& 0xE0 = 0 ∧
      ((st.opcode = 3 ∨ st.opcode = 4 ∨ st.opcode = 7 ∨ st.opcode = 10 ∨ st.opcode = 11 ∨
          12 ≤ st.opcode) → m1.SREG = m.SREG) ∧
      ((st.opcode = 2 ∨ st.opcode = 5 ∨ st.opcode = 6 ∨ st.opcode = 8 ∨ st.opcode = 9) →
        ∀ j, j ≠ 0 → j ≠ 1 → bitOf m1.SREG j = bitOf m.SREG j) ∧
      (st.opcode = 1 → flagC m1.SREG = flagC m.SREG) := by
  have h32 : m.SREG < 32 := byte_high_clear _ hb hs
  have hsome : ∃ m1, execute st m = some m1 := by
    cases he : execute st m with
    | none => exact absurd ((execute_eq_none_iff st m).mp he).2 hnf
    | some m1 => exact ⟨m1, rfl⟩
  obtain ⟨m1, he⟩ := hsome
  obtain ⟨⟨x, hx⟩, hA, hB, hC⟩ := execute_sreg st m m1 hv he
  have hlt : m1.SREG < 32 := by rw [hx]; exact mask_lt x
  refine ⟨m1, he, by omega, lt_32_high_clear _ hlt, ?_, ?_, hC⟩
  · intro ho
    rw [hA ho]
    exact mask_id _ h32
  · intro ho j h0 h1
    obtain ⟨r, hr⟩ := hB ho
    rw [hr]
    exact bitOf_setNZ_mask _ _ j h32 h0 h1

/-! ## Values written by the ALU opcodes -/

theorem shift_amount : ∀ i : Nat, i < 64 →
    (cAnd (if i < 32 then (i : Int) else (i : Int) - 64) 0x7).toNat = i % 8 := by
  decide

theorem toI8_natCast (a : Nat) (h : a < 256) : toI8 (a : Int) = signed8 a := by
  unfold toI8 signed8
  split <;> split <;> omega

theorem flags_after_setNZ (s r : Nat) :
    (flagN ((setNZ s r &&& 0x1F) % 256) = 1 ↔ r.testBit 7 = true) ∧
    (flagZ ((setNZ s r &&& 0x1F) % 256) = 1 ↔ r = 0) := by
  constructor
  · rw [flagN_eq, bitOf_mask _ 1 (by decide), bitOf_setNZ_one, ← and_128_ne_zero]
    split <;> simp_all
  · rw [flagZ_eq, bitOf_mask _ 0 (by decide), bitOf_setNZ_zero]
    split <;> simp_all

set_option maxRecDepth 4000 in
/-- C13. For a valid Execute-slot entry with 8-bit operand snapshots and a 6-bit
field2, read as the signed immediate `imm` in `[-32, 31]` and with `s` its low
3 bits, `execute` returns and the value in `registers[field1]` is: MUL
`(op1 * op2) mod 256`; MOVI `imm mod 256`; ANDI `op1 AND (imm mod 256)`; EOR
`op1 XOR op2`; SAL `(op1 * 2^s) mod 256`; SAR `floor(signed(op1) / 2^s) mod 256`.
For MUL, ANDI, EOR, SAL and SAR the Negative bit is then 1 iff bit 7 of that value
is set and the Zero bit is 1 iff that value is 0. -/
theorem execute_alu_values (st : PipelineStage) (m : Machine)
    (hv : st.valid = true) (h1 : st.r1_val < 256) (h2 : st.r2_val < 256) (hi : st.imm < 64)
    (hop : st.opcode = 2 ∨ st.opcode = 3 ∨ st.opcode = 5 ∨ st.opcode = 6 ∨ st.opcode = 8 ∨
      st.opcode = 9) :
    ∃ m1, execute st m = some m1 ∧
      (st.opcode = 2 → m1.registers st.r1 = (st.r1_val * st.r2_val) % 256) ∧
      (st.opcode = 3 → (m1.registers st.r1 : Int) =
        (if st.imm < 32 then (st.imm : Int) else (st.imm : Int) - 64) % 256) ∧
      (st.opcode = 5 → m1.registers st.r1 =
        st.r1_val &&& ((if st.imm < 32 then (st.imm : Int) else (st.imm : Int) - 64) % 256).toNat) ∧
      (st.opcode = 6 → m1.registers st.r1 = st.r1_val ^^^ st.r2_val) ∧
      (st.opcode = 8 → m1.registers st.r1 = (st.r1_val * 2 ^ (st.imm % 8)) % 256) ∧
      (st.opcode = 9 → (m1.registers st.r1 : Int) =
        (Int.fdiv (signed8 st.r1_val) (2 ^ (st.imm % 8))) % 256) ∧
      (st.opcode ≠ 3 →
        (flagN m1.SREG = 1 ↔ (m1.registers st.r1).testBit 7 = true) ∧
        (flagZ m1.SREG = 1 ↔ m1.registers st.r1 = 0)) := by
  have himm := immOf_eq st hi
  have hsh : (cAnd (immOf st) 0x7).toNat = st.imm % 8 := by
    rw [himm]; exact shift_amount st.imm hi
  have fin : ∀ (m1 : Machine) (r : Nat), m1.registers st.r1 = r →
      m1.SREG = (setNZ m.SREG r &&& 0x1F) % 256 →
      (flagN m1.SREG = 1 ↔ (m1.registers st.r1).testBit 7 = true) ∧
        (flagZ m1.SREG = 1 ↔ m1.registers st.r1 = 0) := by
    intro m1 r hr hs
    rw [hr, hs]
    exact flags_after_setNZ _ _
  rcases hop with hop | hop | hop | hop | hop | hop
  · obtain ⟨m1, he, hr, hs⟩ : ∃ m1, execute st m = some m1 ∧
        m1.registers st.r1 = (st.r1_val * st.r2_val) % 256 ∧
        m1.SREG = (setNZ m.SREG ((st.r1_val * st.r2_val) % 256) &&& 0x1F) % 256 := by
      simp only [execute, hv, hop, finish]
      exact ⟨_, rfl, by simp [store], rfl⟩
    exact ⟨m1, he, fun _ => hr, fun h => by omega, fun h => by omega, fun h => by omega,
      fun h => by omega, fun h => by omega, fun _ => fin m1 _ hr hs⟩
  · obtain ⟨m1, he, hr⟩ : ∃ m1, execute st m = some m1 ∧
        m1.registers st.r1 = toU8 (immOf st) := by
      simp only [execute, hv, hop, finish]
      exact ⟨_, rfl, by simp [store]⟩
    refine ⟨m1, he, fun h => by omega, fun _ => ?_, fun h => by omega, fun h => by omega,
      fun h => by omega, fun h => by omega, fun h => absurd hop h⟩
    rw [hr, himm]
    unfold toU8
    omega
  · obtain ⟨m1, he, hr, hs⟩ : ∃ m1, execute st m = some m1 ∧
        m1.registers st.r1 = toU8 (cAnd (st.r1_val : Int) (immOf st)) ∧
        m1.SREG = (setNZ m.SREG (toU8 (cAnd (st.r1_val : Int) (immOf st))) &&& 0x1F) % 256 := by
      simp only [execute, hv, hop, finish]
      exact ⟨_, rfl, by simp [store], rfl⟩
    refine ⟨m1, he, fun h => by omega, fun h => by omega, fun _ => ?_, fun h => by omega,
      fun h => by omega, fun h => by omega, fun _ => fin m1 _ hr hs⟩
    rw [hr, toU8_cAnd, toU8_natCast, himm]
    have e : st.r1_val % 256 = st.r1_val := by omega
    rw [e]
    rfl
  · have hx : st.r1_val ^^^ st.r2_val < 2 ^ 8 :=
      Nat.xor_lt_two_pow (by simpa using h1) (by simpa using h2)
    have e : (st.r1_val ^^^ st.r2_val) % 256 = st.r1_val ^^^ st.r2_val := by
      have : st.r1_val ^^^ st.r2_val < 256 := by simpa using hx
      omega
    obtain ⟨m1, he, hr, hs⟩ : ∃ m1, execute st m = some m1 ∧
        m1.registers st.r1 = (st.r1_val ^^^ st.r2_val) % 256 ∧
        m1.SREG = (setNZ m.SREG ((st.r1_val ^^^ st.r2_val) % 256) &&& 0x1F) % 256 := by
      simp only [execute, hv, hop, finish]
      exact ⟨_, rfl, by simp [store], rfl⟩
    refine ⟨m1, he, fun h => by omega, fun h => by omega, fun h => by omega, fun _ => ?_,
      fun h => by omega, fun h => by omega, fun _ => fin m1 _ hr hs⟩
    rw [hr, e]
  · obtain ⟨m1, he, hr, hs⟩ : ∃ m1, execute st m = some m1 ∧
        m1.registers st.r1 = (st.r1_val <<< (cAnd (immOf st) 0x7).toNat) % 256 ∧
        m1.SREG = (setNZ m.SREG ((st.r1_val <<< (cAnd (immOf st) 0x7).toNat) % 256)
          &&& 0x1F) % 256 := by
      simp only [execute, hv, hop, finish]
      exact ⟨_, rfl, by simp [store], rfl⟩
    refine ⟨m1, he, fun h => by omega, fun h => by omega, fun h => by omega, fun h => by omega,
      fun _ => ?_, fun h => by omega, fun _ => fin m1 _ hr hs⟩
    rw [hr, hsh, Nat.shiftLeft_eq]
  · obtain ⟨m1, he, hr, hs⟩ : ∃ m1, execute st m = some m1 ∧
        m1.registers st.r1 = toU8 (toI8 (st.r1_val : Int) >>> (cAnd (immOf st) 0x7).toNat) ∧
        m1.SREG = (setNZ m.SREG
          (toU8 (toI8 (st.r1_val : Int) >>> (cAnd (immOf st) 0x7).toNat)) &&& 0x1F) % 256 := by
      simp only [execute, hv, hop, finish]
      exact ⟨_, rfl, by simp [store], rfl⟩
    refine ⟨m1, he, fun h => by omega, fun h => by omega, fun h => by omega, fun h => by omega,
      fun h => by omega, fun _ => ?_, fun _ => fin m1 _ hr hs⟩
    have hpos : (0 : Int) ≤ 2 ^ (st.imm % 8) := by positivity
    rw [hr, hsh, toI8_natCast _ h1, Int.shiftRight_eq_div_pow, Int.fdiv_eq_ediv _ hpos]
    unfold toU8
    push_cast
    omega

/-! ## Loader: encoding, range checks, round trip -/

theorem and_15_mod (x : Nat) : x &&& 0xF = x % 16 := by
  have e : (0xF : Nat) = 2 ^ 4 - 1 := by norm_num
  rw [e, Nat.and_pow_two_sub_one_eq_mod]

theorem and_63_mod (x : Nat) : x &&& 0x3F = x % 64 := by
  have e : (0x3F : Nat) = 2 ^ 6 - 1 := by norm_num
  rw [e, Nat.and_pow_two_sub_one_eq_mod]

theorem shr_12 (x : Nat) : x >>> 12 = x / 4096 := by
  rw [Nat.shiftRight_eq_div_pow]

theorem shr_6 (x : Nat) : x >>> 6 = x / 64 := by
  rw [Nat.shiftRight_eq_div_pow]

theorem or3_eq_add (opc d s : Nat) (hd : d < 64) (hs : s < 64) :
    (opc <<< 12) ||| (d <<< 6) ||| s = opc * 4096 + d * 64 + s := by
  have e1 : (opc <<< 12) ||| (d <<< 6) = opc * 4096 + d * 64 := by
    have h := @Nat.mul_add_lt_is_or 12 (d * 64) (by norm_num; omega) opc
    rw [Nat.shiftLeft_eq, Nat.shiftLeft_eq]
    norm_num at h ⊢
    rw [Nat.mul_comm opc 4096, ← h]
  have e2 : (opc * 4096 + d * 64) ||| s = opc * 4096 + d * 64 + s := by
    have h := @Nat.mul_add_lt_is_or 6 s (by norm_num; omega) (opc * 64 + d)
    norm_num at h
    have e : 64 * (opc * 64 + d) = opc * 4096 + d * 64 := by ring
    rw [e] at h
    exact h.symm
  rw [e1, e2]

theorem encodeWord_eq (opc : Nat) (a b : Int) (hopc : opc < 16)
    (ha0 : 0 ≤ a) (ha : a < 64) (hb0 : 0 ≤ b) (hb : b < 64) :
    encodeWord opc a b = opc * 4096 + a.toNat * 64 + b.toNat := by
  have ta : toBits32 a = a.toNat := by unfold toBits32; omega
  have tb : toBits32 b = b.toNat := by unfold toBits32; omega
  unfold encodeWord
  rw [ta, tb, or3_eq_add opc a.toNat b.toNat (by omega) (by omega)]
  omega

theorem cAnd_63 (imm : Int) : cAnd imm 0x3F = imm % 64 := by
  have t : toBits32 (0x3F : Int) = 0x3F := by decide
  unfold cAnd
  rw [t, and_63_mod]
  unfold ofBits32 toBits32
  split <;> omega

theorem decode_word (opc d s : Nat) (hopc : opc < 16) (hd : d < 64) (hs : s < 64) :
    ((opc * 4096 + d * 64 + s) >>> 12) &&& 0xF = opc ∧
    ((opc * 4096 + d * 64 + s) >>> 6) &&& 0x3F = d ∧
    (opc * 4096 + d * 64 + s) &&& 0x3F = s := by
  rw [shr_12, shr_6, and_15_mod, and_63_mod, and_63_mod]
  omega

theorem iOpcode_table (op : String) (opc : Nat) (h : iOpcode op = some opc) :
    (op = "MOVI" ∧ opc = 3) ∨ (op = "BEQZ" ∧ opc = 4) ∨ (op = "ANDI" ∧ opc = 5) ∨
    (op = "SAL" ∧ opc = 8) ∨ (op = "SAR" ∧ opc = 9) ∨ (op = "LDR" ∧ opc = 10) ∨
    (op = "STR" ∧ opc = 11) := by
  unfold iOpcode at h
  repeat' split at h
  all_goals first
    | (injection h with h; subst h; simp_all)
    | simp at h

theorem rOpcode_table (op : String) (opc : Nat) (h : rOpcode op = some opc) :
    (op = "ADD" ∧ opc = 0) ∨ (op = "SUB" ∧ opc = 1) ∨ (op = "MUL" ∧ opc = 2) ∨
    (op = "EOR" ∧ opc = 6) ∨ (op = "BR" ∧ opc = 7) := by
  unfold rOpcode at h
  repeat' split at h
  all_goals first
    | (injection h with h; subst h; simp_all)
    | simp at h

theorem loadLines_append (pre : List Line) :
    ∀ (addr : Nat) (ws : List Nat) (rest : List Line), loadLines pre addr = some ws →
      addr + pre.length ≤ 1024 →
      ws.length = pre.length ∧
      loadLines (pre ++ rest) addr =
        (loadLines rest (addr + pre.length)).map (fun r => ws ++ r) := by
  induction pre with
  | nil =>
    intro addr ws rest h _
    simp only [loadLines] at h
    injection h with h
    subst h
    refine ⟨rfl, ?_⟩
    cases loadLines rest addr <;> simp
  | cons l ls ih =>
    intro addr ws rest h hlen
    simp only [List.length_cons] at hlen
    have ha : addr < 1024 := by omega
    simp only [loadLines, ha, if_true] at h
    cases hl : loadLine l with
    | none => rw [hl] at h; exact absurd h (by simp)
    | some w =>
      rw [hl] at h
      simp only at h
      cases hls : loadLines ls (addr + 1) with
      | none => rw [hls] at h; exact absurd h (by simp)
      | some ws1 =>
        rw [hls] at h
        injection h with h
        subst h
        obtain ⟨hlen1, happ⟩ := ih (addr + 1) ws1 rest hls (by omega)
        refine ⟨by simp [hlen1], ?_⟩
        have happ1 : loadLines (ls.append rest) (addr + 1) =
            (loadLines rest (addr + 1 + ls.length)).map (fun r => ws1 ++ r) := happ
        have e : addr + 1 + ls.length = addr + (ls.length + 1) := by omega
        simp only [List.cons_append, loadLines, ha, if_true, hl, List.length_cons]
        rw [happ1, e]
        cases loadLines rest (addr + (ls.length + 1)) <;> simp

theorem loadProgram_at (pre post : List Line) (l : Line) (ws : List Nat)
    (hpre : loadProgram pre = some ws) (hlen : pre.length < 1024) :
    (loadLine l = none → loadProgram (pre ++ l :: post) = none) ∧
    (∀ w all, loadLine l = some w → loadProgram (pre ++ l :: post) = some all →
      all.getD pre.length 0 = w) := by
  unfold loadProgram at hpre ⊢
  obtain ⟨hl, happ⟩ := loadLines_append pre 0 ws (l :: post) hpre (by omega)
  have ha : 0 + pre.length < 1024 := by omega
  rw [happ]
  simp only [loadLines, ha, if_true]
  constructor
  · intro h
    rw [h]
    rfl
  · intro w all hw hall
    rw [hw] at hall
    simp only at hall
    cases hp : loadLines post (0 + pre.length + 1) with
    | none => rw [hp] at hall; simp at hall
    | some wp =>
      rw [hp] at hall
      simp only [Option.map_some'] at hall
      injection hall with hall
      subst hall
      rw [List.getD_eq_getElem?_getD, List.getElem?_append_right (by omega)]
      simp [hl]

theorem loadLine_ifmt (op : String) (opc r1 : Nat) (imm : Int)
    (hop : iOpcode op = some opc) (hr : r1 < 64) :
    loadLine (.ifmt op (r1 : Int) imm) =
      if (if opc = 10 ∨ opc = 11 then imm < 0 ∨ 63 < imm else imm < -32 ∨ 31 < imm) then none
      else some (opc * 4096 + r1 * 64 + (imm % 64).toNat) := by
  have hopc : opc < 16 := by
    rcases iOpcode_table op opc hop with h | h | h | h | h | h | h <;> omega
  have hr' : ¬ ((r1 : Int) ≥ 64) := by omega
  have henc : encodeWord opc (r1 : Int) (cAnd imm 0x3F) =
      opc * 4096 + r1 * 64 + (imm % 64).toNat := by
    rw [cAnd_63, encodeWord_eq opc _ _ hopc (by omega) (by omega) (by omega) (by omega)]
    simp
  simp only [loadLine, hop, hr', if_false, henc]
  by_cases hm : opc = 10 ∨ opc = 11
  · simp only [hm, if_true]
  · simp only [hm, if_false]

/-- C14. For an I-format line with a known mnemonic (opcode `opc` of the table), a
register index in 0..63 and an integer immediate: the loader rejects the line, and
with it the program, if and only if the immediate is outside `-32..31` for MOVI,
BEQZ, ANDI, SAL, SAR, or outside `0..63` for LDR, STR; otherwise the word stored
at the line's address is `opc * 4096 + reg * 64 + (imm mod 64)`. The line
`MOVI R0 200` is rejected. -/
theorem load_ifmt_line (op : String) (opc r1 : Nat) (imm : Int) (pre post : List Line)
    (ws : List Nat) (hop : iOpcode op = some opc) (hr : r1 < 64)
    (hpre : loadProgram pre = some ws) (hlen : pre.length < 1024) :
    ((op = "MOVI" ∧ opc = 3) ∨ (op = "BEQZ" ∧ opc = 4) ∨ (op = "ANDI" ∧ opc = 5) ∨
      (op = "SAL" ∧ opc = 8) ∨ (op = "SAR" ∧ opc = 9) ∨ (op = "LDR" ∧ opc = 10) ∨
      (op = "STR" ∧ opc = 11)) ∧
    (loadLine (.ifmt op (r1 : Int) imm) = none ↔
      if op = "LDR" ∨ op = "STR" then imm < 0 ∨ 63 < imm else imm < -32 ∨ 31 < imm) ∧
    (loadLine (.ifmt op (r1 : Int) imm) = none →
      loadProgram (pre ++ .ifmt op (r1 : Int) imm :: post) = none) ∧
    (loadLine (.ifmt op (r1 : Int) imm) ≠ none →
      loadLine (.ifmt op (r1 : Int) imm) = some (opc * 4096 + r1 * 64 + (imm % 64).toNat) ∧
      ∀ all, loadProgram (pre ++ .ifmt op (r1 : Int) imm :: post) = some all →
        all.getD pre.length 0 = opc * 4096 + r1 * 64 + (imm % 64).toNat) ∧
    loadLine (.ifmt "MOVI" 0 200) = none := by
  have htab := iOpcode_table op opc hop
  have hline := loadLine_ifmt op opc r1 imm hop hr
  have hat := loadProgram_at pre post (.ifmt op (r1 : Int) imm) ws hpre hlen
  have hmem : (op = "LDR" ∨ op = "STR") ↔ (opc = 10 ∨ opc = 11) := by
    rcases htab with h | h | h | h | h | h | h <;> obtain ⟨h1, h2⟩ := h <;> subst h1 <;>
      subst h2 <;> decide
  refine ⟨htab, ?_, hat.1, ?_, by decide⟩
  · rw [hline]
    by_cases hm : opc = 10 ∨ opc = 11
    · have hm' := hmem.mpr hm
      simp only [hm, hm', if_true]
      split <;> simp_all
    · have hm' : ¬ (op = "LDR" ∨ op = "STR") := fun h => hm (hmem.mp h)
      simp only [hm, hm', if_false]
      split <;> simp_all
  · intro hne
    have hs : loadLine (.ifmt op (r1 : Int) imm) =
        some (opc * 4096 + r1 * 64 + (imm % 64).toNat) := by
      cases hl : loadLine (.ifmt op (r1 : Int) imm) with
      | none => exact absurd hl hne
      | some w =>
        rw [hl] at hline
        by_cases hC : (if opc = 10 ∨ opc = 11 then imm < 0 ∨ 63 < imm
            else imm < -32 ∨ 31 < imm)
        · rw [if_pos hC] at hline; exact absurd hline (by simp)
        · rw [if_neg hC] at hline; exact hline
    exact ⟨hs, fun all hall => hat.2 _ all hs hall⟩

/-- C15 (the code on failing inputs). The loader accepts the R-format line
`ADD R-1 R3` and stores the word 0xFFC3 for it, accepts `ADD R3 R-1`, and accepts
the I-format line `MOVI R-1 5`: a negative register index is not rejected, while
`ADD R64 R0`, `ADD R0 R64` and `MOVI R64 5` are. -/
theorem load_negative_register_accepted :
    loadLine (.rfmt "ADD" (-1) 3) = some 0xFFC3 ∧
    loadProgram [.rfmt "ADD" (-1) 3] = some [0xFFC3] ∧
    (loadLine (.rfmt "ADD" 3 (-1))).isSome = true ∧
    (loadLine (.ifmt "MOVI" (-1) 5)).isSome = true ∧
    loadLine (.rfmt "ADD" 64 0) = none ∧ loadLine (.rfmt "ADD" 0 64) = none ∧
    loadLine (.ifmt "MOVI" 64 5) = none := by
  decide

theorem loadLine_rfmt (op : String) (opc d s : Nat) (hop : rOpcode op = some opc)
    (hd : d < 64) (hs : s < 64) :
    loadLine (.rfmt op (d : Int) (s : Int)) = some (opc * 4096 + d * 64 + s) := by
  have hopc : opc < 16 := by
    rcases rOpcode_table op opc hop with h | h | h | h | h <;> omega
  have hc : ¬ ((d : Int) ≥ 64 ∨ (s : Int) ≥ 64) := by omega
  simp only [loadLine, hop, hc, if_false]
  rw [encodeWord_eq opc _ _ hopc (by omega) (by omega) (by omega) (by omega)]
  simp

theorem decode_fetched_word (regs : Nat → Nat) (opc d s ad : Nat)
    (hopc : opc < 16) (hd : d < 64) (hs : s < 64) :
    (decode regs (fetched (opc * 4096 + d * 64 + s) ad)).opcode = opc ∧
    (decode regs (fetched (opc * 4096 + d * 64 + s) ad)).r1 = d ∧
    (decode regs (fetched (opc * 4096 + d * 64 + s) ad)).r2 = s ∧
    (decode regs (fetched (opc * 4096 + d * 64 + s) ad)).imm = s := by
  obtain ⟨_, _, _, a, b, c, e, _, _⟩ :=
    decode_fields regs (fetched (opc * 4096 + d * 64 + s) ad) rfl
  obtain ⟨w1, w2, w3⟩ := decode_word opc d s hopc hd hs
  have hi : (fetched (opc * 4096 + d * 64 + s) ad).instruction = opc * 4096 + d * 64 + s := rfl
  rw [hi] at a b c e
  rw [a, b, c, e]
  exact ⟨w1, w2, w3, w3⟩

/-- C16. Round trip between the loader's encoding and `decode`. For an R-format
line with registers `d`, `s` in 0..63 the loader stores a word whose decoded
opcode, field1 and field2 are the line's opcode, `d` and `s`. For an I-format line
with register `d` in 0..63 and an accepted immediate, the decoded opcode and
field1 are the line's opcode and `d`, and the sign-extension done by `execute`
gives back a signed immediate in `-32..31` while its unsigned 6-bit reading gives
back an address in `0..63`. Every opcode 0..11 has a mnemonic. Conversely, for
every 16-bit word `w` the decoded fields satisfy
`opcode * 4096 + field1 * 64 + field2 = w`. -/
theorem encode_decode_roundtrip (regs : Nat → Nat) (ad : Nat) :
    (∀ (op : String) (opc d s : Nat), rOpcode op = some opc → d < 64 → s < 64 →
      ∃ w, loadLine (.rfmt op (d : Int) (s : Int)) = some w ∧
        (decode regs (fetched w ad)).opcode = opc ∧
        (decode regs (fetched w ad)).r1 = d ∧ (decode regs (fetched w ad)).r2 = s) ∧
    (∀ (op : String) (opc d : Nat) (imm : Int), iOpcode op = some opc →
      opc ≠ 10 → opc ≠ 11 → d < 64 → -32 ≤ imm → imm ≤ 31 →
      ∃ w, loadLine (.ifmt op (d : Int) imm) = some w ∧
        (decode regs (fetched w ad)).opcode = opc ∧
        (decode regs (fetched w ad)).r1 = d ∧ immOf (decode regs (fetched w ad)) = imm) ∧
    (∀ (op : String) (opc d a : Nat), iOpcode op = some opc →
      opc = 10 ∨ opc = 11 → d < 64 → a < 64 →
      ∃ w, loadLine (.ifmt op (d : Int) (a : Int)) = some w ∧
        (decode regs (fetched w ad)).opcode = opc ∧
        (decode regs (fetched w ad)).r1 = d ∧ memAddrOf (decode regs (fetched w ad)) = a) ∧
    (∀ opc, opc < 12 → (∃ op, rOpcode op = some opc) ∨ (∃ op, iOpcode op = some opc)) ∧
    (∀ w, w < 65536 →
      (decode regs (fetched w ad)).opcode * 4096 + (decode regs (fetched w ad)).r1 * 64 +
        (decode regs (fetched w ad)).r2 = w) := by
  refine ⟨?_, ?_, ?_, ?_, ?_⟩
  · intro op opc d s hop hd hs
    have hopc : opc < 16 := by
      rcases rOpcode_table op opc hop with h | h | h | h | h <;> omega
    obtain ⟨a, b, c, _⟩ := decode_fetched_word regs opc d s ad hopc hd hs
    exact ⟨_, loadLine_rfmt op opc d s hop hd hs, a, b, c⟩
  · intro op opc d imm hop h10 h11 hd hlo hhi
    have hopc : opc < 16 := by
      rcases iOpcode_table op opc hop with h | h | h | h | h | h | h <;> omega
    have hline := loadLine_ifmt op opc d imm hop hd
    have hm : ¬ (opc = 10 ∨ opc = 11) := by omega
    have hr : ¬ (imm < -32 ∨ 31 < imm) := by omega
    simp only [hm, if_false, hr] at hline
    have hf : (imm % 64).toNat < 64 := by omega
    obtain ⟨a, b, _, e⟩ := decode_fetched_word regs opc d (imm % 64).toNat ad hopc hd hf
    refine ⟨_, hline, a, b, ?_⟩
    rw [immOf_eq _ (by rw [e]; exact hf), e]
    split <;> omega
  · intro op opc d a hop hm hd ha
    have hopc : opc < 16 := by omega
    have hline := loadLine_ifmt op opc d (a : Int) hop hd
    have hr : ¬ ((a : Int) < 0 ∨ 63 < (a : Int)) := by omega
    simp only [hm, if_true, hr, if_false] at hline
    have hf : ((a : Int) % 64).toNat = a := by omega
    rw [hf] at hline
    obtain ⟨x, y, _, e⟩ := decode_fetched_word regs opc d a ad hopc hd ha
    refine ⟨_, hline, x, y, ?_⟩
    unfold memAddrOf
    rw [e, and_63_mod]
    omega
  · intro opc h
    have key : ∀ o < 12, (∃ op, rOpcode op = some o) ∨ (∃ op, iOpcode op = some o) := by
      intro o ho
      match o, ho with
      | 0, _ => exact Or.inl ⟨"ADD", rfl⟩
      | 1, _ => exact Or.inl ⟨"SUB", rfl⟩
      | 2, _ => exact Or.inl ⟨"MUL", rfl⟩
      | 3, _ => exact Or.inr ⟨"MOVI", rfl⟩
      | 4, _ => exact Or.inr ⟨"BEQZ", rfl⟩
      | 5, _ => exact Or.inr ⟨"ANDI", rfl⟩
      | 6, _ => exact Or.inl ⟨"EOR", rfl⟩
      | 7, _ => exact Or.inl ⟨"BR", rfl⟩
      | 8, _ => exact Or.inr ⟨"SAL", rfl⟩
      | 9, _ => exact Or.inr ⟨"SAR", rfl⟩
      | 10, _ => exact Or.inr ⟨"LDR", rfl⟩
      | 11, _ => exact Or.inr ⟨"STR", rfl⟩
      | n + 12, h => omega
    exact key opc h
  · intro w hw
    obtain ⟨_, _, _, a, b, c, _, _, _⟩ := decode_fields regs (fetched w ad) rfl
    have hi : (fetched w ad).instruction = w := rfl
    rw [hi] at a b c
    rw [a, b, c, shr_12, shr_6, and_15_mod, and_63_mod, and_63_mod]
    omega

/-! ## Decode reads the register file after execute -/

theorem applyFlush_ID_cases (m : Machine) :
    (applyFlush m).ID = m.ID ∨ (applyFlush m).ID = { m.ID with valid := false } := by
  unfold applyFlush
  split
  · exact Or.inr rfl
  · exact Or.inl rfl

theorem cycleStep_decode (m m2 : Machine) (h : cycleStep m = some m2) :
    ∃ m1, execute m.EX m = some m1 ∧ m2.registers = m1.registers ∧
      m2.data_mem = m1.data_mem ∧ m2.SREG = m1.SREG ∧ m2.EX = m.ID ∧
      (m2.ID = decode m1.registers m.IF ∨
        m2.ID = { decode m1.registers m.IF with valid := false }) := by
  unfold cycleStep at h
  split at h
  · exact absurd h (by simp)
  · rename_i m1 he
    injection h with h
    subst h
    have fr := execute_frame _ _ _ he
    have af := applyFlush_fields (advance m1)
    have ad := advance_fields m1
    refine ⟨m1, he, ?_, ?_, ?_, ?_, ?_⟩
    · rw [af.2.2.2.1, ad.2.2.2.2.1]
    · rw [af.2.2.2.2.1, ad.2.2.2.2.2.1]
    · rw [af.1, ad.1]
    · rw [af.2.1, ad.2.1, fr.hID]
    · rcases applyFlush_ID_cases (advance m1) with e | e
      · left; rw [e, ad.2.2.1, fr.hIF]
      · right; rw [e, ad.2.2.1, fr.hIF]

theorem execute_writes_result (st : PipelineStage) (m m1 : Machine) (v : Nat)
    (hv : st.valid = true) (he : execute st m = some m1) (hr : resultOf st m = some v) :
    m1.registers st.r1 = v ∧ ∀ j, j ≠ st.r1 → m1.registers j = m.registers j := by
  obtain ⟨ins, vl, op, r1, r2, im, a, b, ad⟩ := st
  simp only at hv
  subst hv
  match op with
  | 0 | 1 | 2 | 3 | 5 | 6 | 8 | 9 | 10 =>
    simp [execute, finish] at he
    simp [resultOf] at hr
    subst he
    subst hr
    simp only [store, if_true, true_and]
    intro j hj
    simp [hj]
  | 4 | 7 | 11 => simp [resultOf] at hr
  | n + 12 => simp [resultOf] at hr

theorem execute_no_result (st : PipelineStage) (m m1 : Machine)
    (he : execute st m = some m1) (hr : st.valid = false ∨ resultOf st m = none) :
    m1.registers = m.registers := by
  by_cases hv : st.valid = true
  · have hr : resultOf st m = none := by
      rcases hr with h | h
      · rw [hv] at h; exact absurd h (by simp)
      · exact h
    obtain ⟨ins, vl, op, r1, r2, im, a, b, ad⟩ := st
    simp only at hv
    subst hv
    match op with
    | 0 | 1 | 2 | 3 | 5 | 6 | 8 | 9 | 10 => simp [resultOf] at hr
    | 4 =>
      simp only [execute, finish] at he
      simp at he
      split at he
      · split at he
        · exact absurd he (by simp)
        · injection he with he; subst he; rfl
      · injection he with he; subst he; rfl
    | 7 =>
      simp only [execute, finish] at he
      simp at he
      obtain ⟨_, he⟩ := he
      subst he
      rfl
    | 11 =>
      simp [execute, finish] at he
      subst he
      rfl
    | n + 12 =>
      simp [execute, finish] at he
      subst he
      rfl
  · simp [execute, hv] at he
    subst he
    rfl

/-- C17. In every cycle that does not end in the fatal exit and whose Fetch slot
is valid, the operand snapshots of the instruction that moves into the Decode
slot are read from the register file as `execute` left it in that same cycle:
operand 1 is `registers[field1]`, and operand 2 is `registers[field2]` when the
opcode is R-format. In particular, if the Execute slot holds a valid
register-writing instruction with destination `d` and result `v`, then after the
cycle the snapshot of every operand that names `d` equals `v`. -/
theorem decode_reads_after_execute (m m2 : Machine) (hc : cycleStep m = some m2)
    (hIF : m.IF.valid = true) :
    ∃ m1, execute m.EX m = some m1 ∧
      m2.ID.instruction = m.IF.instruction ∧
      m2.ID.r1 = (m.IF.instruction >>> 6) &&& 0x3F ∧
      m2.ID.r2 = m.IF.instruction &&& 0x3F ∧
      m2.ID.opcode = (m.IF.instruction >>> 12) &&& 0xF ∧
      m2.ID.r1_val = m1.registers m2.ID.r1 ∧
      ((m2.ID.opcode ≤ 2 ∨ m2.ID.opcode = 6 ∨ m2.ID.opcode = 7) →
        m2.ID.r2_val = m1.registers m2.ID.r2) ∧
      (∀ v, m.EX.valid = true → resultOf m.EX m = some v →
        (m2.ID.r1 = m.EX.r1 → m2.ID.r1_val = v) ∧
        ((m2.ID.opcode ≤ 2 ∨ m2.ID.opcode = 6 ∨ m2.ID.opcode = 7) →
          m2.ID.r2 = m.EX.r1 → m2.ID.r2_val = v)) := by
  obtain ⟨m1, he, _, _, _, _, hID⟩ := cycleStep_decode m m2 hc
  obtain ⟨_, di, _, dop, d1, d2, _, dv1, dv2⟩ := decode_fields m1.registers m.IF hIF
  have hf : m2.ID.instruction = m.IF.instruction ∧
      m2.ID.r1 = (m.IF.instruction >>> 6) &&& 0x3F ∧
      m2.ID.r2 = m.IF.instruction &&& 0x3F ∧
      m2.ID.opcode = (m.IF.instruction >>> 12) &&& 0xF ∧
      m2.ID.r1_val = m1.registers ((m.IF.instruction >>> 6) &&& 0x3F) ∧
      m2.ID.r2_val =
        if (m.IF.instruction >>> 12) &&& 0xF ≤ 2 ∨ (m.IF.instruction >>> 12) &&& 0xF = 6 ∨
            (m.IF.instruction >>> 12) &&& 0xF = 7
        then m1.registers (m.IF.instruction &&& 0x3F) else 0 := by
    rcases hID with e | e <;> rw [e] <;> exact ⟨di, d1, d2, dop, dv1, dv2⟩
  obtain ⟨f1, f2, f3, f4, f5, f6⟩ := hf
  have g5 : m2.ID.r1_val = m1.registers m2.ID.r1 := by rw [f5, f2]
  have g6 : (m2.ID.opcode ≤ 2 ∨ m2.ID.opcode = 6 ∨ m2.ID.opcode = 7) →
      m2.ID.r2_val = m1.registers m2.ID.r2 := by
    intro ho
    rw [f4] at ho
    rw [f6, if_pos ho, f3]
  refine ⟨m1, he, f1, f2, f3, f4, g5, g6, ?_⟩
  intro v hv hr
  have hw := (execute_writes_result m.EX m m1 v hv he hr).1
  constructor
  · intro hd
    rw [g5, hd, hw]
  · intro ho hd
    rw [g6 ho, hd, hw]

/-! ## Order of execution in a run without a taken branch -/

theorem cycleStep_noflush (m m1 : Machine) (he : execute m.EX m = some m1)
    (hf : m1.flush = false) :
    cycleStep m = some { advance m1 with cycle := m1.cycle + 1 } := by
  have hfa : (advance m1).flush = false := by
    rw [(advance_fields m1).2.2.2.1]; exact hf
  simp only [cycleStep, he, applyFlush, hfa]
  simp [(advance_fields m1).2.2.2.2.2.2.2.2]

theorem slots_prefetch (im : Nat → Nat) (k : Nat) (hk1 : 1 ≤ k) :
    StraightSlots im k 0 (prefetch (initState im k)) := by
  have hpos : k > 0 := hk1
  simp only [prefetch, initState, hpos, if_true]
  refine ⟨rfl, fun _ => rfl, fun h => by omega, fun h => by omega⟩

theorem straight_step_slots (im : Nat → Nat) (k j : Nat) (m : Machine) (hk : k ≤ 1024)
    (hs : Straight k j m) (hsl : StraightSlots im k j m)
    (hnt : (m.EX.valid && takenBranch m.EX) = false) :
    ∃ m2, cycleStep m = some m2 ∧ Straight k (j + 1) m2 ∧ StraightSlots im k (j + 1) m2 ∧
      m2.EX = m.ID := by
  obtain ⟨m2, hc, hs2⟩ := straight_step k j m hk hs hnt
  obtain ⟨m1, he, hpc, hfl⟩ := execute_not_taken m.EX m hnt
  have fr := execute_frame _ _ _ he
  have hc2 := cycleStep_noflush m m1 he (by rw [hfl]; exact hs.hflush)
  rw [hc] at hc2
  injection hc2 with hc2
  have hsz : m1.program_size = k := by rw [fr.hsize]; exact hs.hsize
  have hPC : m1.PC = min (j + 1) k := by rw [hpc]; exact hs.hPC
  have hall : m1.fetched_all = decide (k ≤ j) := by rw [fr.hall]; exact hs.hall
  have hmem : m1.instr_mem = im := by rw [fr.hmem]; exact hsl.hmem
  refine ⟨m2, hc, hs2, ?_, ?_⟩
  · by_cases hfetch : j + 1 < k
    · have h1 : m1.fetched_all = false := by rw [hall]; simp; omega
      have h2 : m1.PC < m1.program_size := by rw [hPC, hsz]; omega
      have hp : m1.PC = j + 1 := by rw [hPC]; omega
      rw [advance_fetch m1 h1 h2] at hc2
      subst hc2
      refine ⟨hmem, ?_, ?_, ?_⟩
      · intro _
        simp only [hmem, hp, fr.hIF, hsl.hIF (by omega)]
        rfl
      · intro _ _
        simp only [fr.hIF, hsl.hIF (by omega)]
        rfl
      · intro h2 _
        simp only [fr.hID]
        exact ⟨_, hsl.hID (by omega) (by omega)⟩
    · have h1 : m1.fetched_all = true ∨ ¬ m1.PC < m1.program_size := by
        right; rw [hPC, hsz]; omega
      rw [advance_nofetch m1 h1] at hc2
      subst hc2
      refine ⟨hmem, ?_, ?_, ?_⟩
      · intro h; omega
      · intro _ hjk
        simp only [fr.hIF, hsl.hIF (by omega)]
        rfl
      · intro h2 _
        simp only [fr.hID]
        exact ⟨_, hsl.hID (by omega) (by omega)⟩
  · by_cases hfetch : j + 1 < k
    · have h1 : m1.fetched_all = false := by rw [hall]; simp; omega
      have h2 : m1.PC < m1.program_size := by rw [hPC, hsz]; omega
      rw [advance_fetch m1 h1 h2] at hc2
      subst hc2
      exact fr.hID
    · have h1 : m1.fetched_all = true ∨ ¬ m1.PC < m1.program_size := by
        right; rw [hPC, hsz]; omega
      rw [advance_nofetch m1 h1] at hc2
      subst hc2
      exact fr.hID

theorem straight_iter_slots (im : Nat → Nat) (k : Nat) (hk1 : 1 ≤ k) (hk : k ≤ 1024)
    (hnb : noBranchTaken (prefetch (initState im k)) (k + 2) = true) :
    ∀ j, j ≤ k + 2 → ∃ mj, iter j (prefetch (initState im k)) = some mj ∧
      Straight k j mj ∧ StraightSlots im k j mj ∧ noBranchTaken mj (k + 2 - j) = true ∧
      (1 ≤ j → ∃ mp, iter (j - 1) (prefetch (initState im k)) = some mp ∧
        Straight k (j - 1) mp ∧ StraightSlots im k (j - 1) mp ∧ mj.EX = mp.ID) := by
  intro j
  induction j with
  | zero =>
    intro _
    exact ⟨_, rfl, straight_prefetch im k hk1 hk, slots_prefetch im k hk1, hnb,
      fun h => by omega⟩
  | succ j ih =>
    intro hj
    obtain ⟨mj, hit, hst, hsl, hn, _⟩ := ih (by omega)
    have e : k + 2 - j = (k + 2 - (j + 1)) + 1 := by omega
    rw [e] at hn
    obtain ⟨hnt, hrest⟩ := noBranchTaken_head _ _ hn
    obtain ⟨m2, hc, hst2, hsl2, hex⟩ := straight_step_slots im k j mj hk hst hsl hnt
    refine ⟨m2, ?_, hst2, hsl2, hrest m2 hc, fun _ => ⟨mj, hit, hst, hsl, hex⟩⟩
    rw [iter_succ_right, hit]
    exact hc

/-- C18. For every program of `k` instructions, `1 ≤ k ≤ 1024`, in whose run no
branch is taken: the run drains after exactly `k + 2` cycles; at the top of cycle
`c` (`1 ≤ c ≤ k + 2`) the Execute slot is valid exactly when `3 ≤ c`, so `execute`
runs on a valid slot in exactly the `k` cycles `3 .. k + 2`; and for every
`i < k` the slot executed in cycle `i + 3` holds `instr_mem[i]` with fetch-PC `i`,
decoded against the register file as it stands at the top of cycle `i + 2`, one
cycle before the instruction executes. -/
theorem straight_line_order (im : Nat → Nat) (k fuel : Nat) (hk1 : 1 ≤ k) (hk : k ≤ 1024)
    (hnb : noBranchTaken (prefetch (initState im k)) (k + 2) = true)
    (hf : k + 2 ≤ fuel) :
    (∃ mf, simulate fuel (initState im k) = .finished mf ∧ mf.cycle = k + 3) ∧
    (∀ c, 1 ≤ c → c ≤ k + 2 →
      ∃ s, iter (c - 1) (prefetch (initState im k)) = some s ∧ s.cycle = c ∧
        (s.EX.valid = true ↔ 3 ≤ c) ∧ ∃ s1, execute s.EX s = some s1) ∧
    (∀ i, i < k →
      ∃ s1 s2, iter (i + 1) (prefetch (initState im k)) = some s1 ∧
        iter (i + 2) (prefetch (initState im k)) = some s2 ∧
        s1.cycle = i + 2 ∧ s2.cycle = i + 3 ∧
        s2.EX.valid = true ∧ s2.EX.instruction = im i ∧ s2.EX.addr = i ∧
        s2.EX = decode s1.registers (fetched (im i) i)) := by
  have H := straight_iter_slots im k hk1 hk hnb
  refine ⟨?_, ?_, ?_⟩
  · obtain ⟨m, hit, hst, _, _, _⟩ := H (k + 2) (Nat.le_refl _)
    have hnot : ∀ j, 1 ≤ j → j < k + 2 → ∀ mj,
        iter j (prefetch (initState im k)) = some mj → isDone mj = false := by
      intro j _ hj mj hmj
      obtain ⟨mj2, hit2, hst2, _, _, _⟩ := H j (by omega)
      rw [hit2] at hmj
      injection hmj with hmj
      subst hmj
      rw [straight_isDone k j _ hk1 hst2]
      simp; omega
    have hdone : isDone m = true := by
      rw [straight_isDone k _ _ hk1 hst]; simp
    exact ⟨m, loop_of_iter (k + 2) _ m (by omega) hit hdone hnot fuel hf, hst.hcycle⟩
  · intro c hc1 hc2
    obtain ⟨s, hit, hst, _, hn, _⟩ := H (c - 1) (by omega)
    have e : k + 2 - (c - 1) = (k + 2 - c) + 1 := by omega
    rw [e] at hn
    obtain ⟨hnt, _⟩ := noBranchTaken_head _ _ hn
    obtain ⟨s1, he, _, _⟩ := execute_not_taken s.EX s hnt
    refine ⟨s, hit, by rw [hst.hcycle]; omega, ?_, s1, he⟩
    rw [hst.hEX]
    simp; omega
  · intro i hi
    obtain ⟨s2, hit2, hst2, _, _, hprev⟩ := H (i + 2) (by omega)
    obtain ⟨s1, hit1, hst1, hsl1, hex⟩ := hprev (by omega)
    have hid := hsl1.hID (by omega) (by omega)
    have e1 : i + 2 - 1 = i + 1 := by omega
    have e2 : i + 1 - 1 = i := by omega
    rw [e1] at hit1 hst1 hid
    rw [e2] at hid
    have hEXeq : s2.EX = decode s1.registers (fetched (im i) i) := by rw [hex, hid]
    obtain ⟨dv, di, da, _⟩ := decode_fields s1.registers (fetched (im i) i) rfl
    refine ⟨s1, s2, hit1, hit2, hst1.hcycle, hst2.hcycle, ?_, ?_, ?_, hEXeq⟩
    · rw [hEXeq]; exact dv
    · rw [hEXeq, di]; rfl
    · rw [hEXeq, da]; rfl

/-! ## Fetch exhaustion -/

theorem applyFlush_slots (m : Machine) :
    (applyFlush m).IF.instruction = m.IF.instruction ∧ (applyFlush m).IF.addr = m.IF.addr ∧
    (m.IF.valid = false → (applyFlush m).IF.valid = false) ∧
    (m.ID.valid = false → (applyFlush m).ID.valid = false) := by
  unfold applyFlush
  split <;> simp

theorem advance_exhausted (m : Machine) (hf : m.fetched_all = true) :
    (advance m).fetched_all = true ∧ (advance m).IF.valid = false ∧
    (advance m).IF.instruction = m.IF.instruction ∧ (advance m).IF.addr = m.IF.addr ∧
    (advance m).PC = m.PC := by
  rw [advance_nofetch m (Or.inl hf)]
  simp [hf]

theorem cycleStep_exhausted (m m2 : Machine) (h : cycleStep m = some m2)
    (hf : m.fetched_all = true) :
    m2.fetched_all = true ∧ m2.IF.valid = false ∧ m2.IF.instruction = m.IF.instruction ∧
    m2.IF.addr = m.IF.addr ∧ m2.cycle = m.cycle + 1 ∧ m2.EX = m.ID ∧
    (m.IF.valid = false → m2.ID.valid = false) := by
  unfold cycleStep at h
  split at h
  · exact absurd h (by simp)
  · rename_i m1 he
    injection h with h
    subst h
    have fr := execute_frame _ _ _ he
    have hf1 : m1.fetched_all = true := by rw [fr.hall]; exact hf
    obtain ⟨x1, x2, x3, x4, _⟩ := advance_exhausted m1 hf1
    obtain ⟨y1, y2, y3, y4⟩ := applyFlush_slots (advance m1)
    have af := applyFlush_fields (advance m1)
    have ad := advance_fields m1
    refine ⟨?_, y3 x2, ?_, ?_, ?_, ?_, ?_⟩
    · rw [af.2.2.2.2.2.2.1]; exact x1
    · rw [y1, x3, fr.hIF]
    · rw [y2, x4, fr.hIF]
    · rw [af.2.2.2.2.2.2.2.2, ad.2.2.2.2.2.2.2.2, fr.hcycle]
    · rw [af.2.1, ad.2.1, fr.hID]
    · intro hi
      apply y4
      rw [ad.2.2.1, decode_valid, fr.hIF]
      exact hi

theorem iter_exhausted : ∀ (n : Nat) (m m2 : Machine), m.fetched_all = true →
    iter n m = some m2 →
    m2.fetched_all = true ∧ (1 ≤ n → m2.IF.valid = false) ∧
    m2.IF.instruction = m.IF.instruction ∧ m2.IF.addr = m.IF.addr := by
  intro n
  induction n with
  | zero =>
    intro m m2 hf h
    simp only [iter] at h
    injection h with h
    subst h
    exact ⟨hf, fun h => by omega, rfl, rfl⟩
  | succ n ih =>
    intro m m2 hf h
    rw [iter_succ_right] at h
    cases hn : iter n m with
    | none => rw [hn] at h; exact absurd h (by simp)
    | some mn =>
      rw [hn] at h
      simp only [Option.bind] at h
      obtain ⟨a, _, c, d⟩ := ih m mn hf hn
      obtain ⟨a2, b2, c2, d2, _⟩ := cycleStep_exhausted mn m2 h a
      exact ⟨a2, fun _ => b2, by rw [c2, c], by rw [d2, d]⟩

theorem drain_two (m : Machine) (fuel : Nat) (hf : m.fetched_all = true)
    (hi : m.IF.valid = false) (h2 : 2 ≤ fuel) :
    loop fuel m = .fatal ∨ ∃ mf, loop fuel m = .finished mf ∧ mf.cycle ≤ m.cycle + 2 ∧
      mf.cycle ≥ m.cycle + 1 := by
  obtain ⟨f, rfl⟩ : ∃ f, fuel = f + 2 := ⟨fuel - 2, by omega⟩
  rw [loop]
  cases hc : cycleStep m with
  | none => exact Or.inl rfl
  | some m1 =>
    simp only
    obtain ⟨a1, b1, _, _, e1, _, g1⟩ := cycleStep_exhausted m m1 hc hf
    by_cases hd : isDone m1 = true
    · right
      exact ⟨m1, by simp [hd], by omega, by omega⟩
    · simp only [hd]
      rw [loop]
      cases hc2 : cycleStep m1 with
      | none => exact Or.inl rfl
      | some m2 =>
        simp only
        obtain ⟨a2, b2, _, _, e2, x2, g2⟩ := cycleStep_exhausted m1 m2 hc2 a1
        have hEX : m2.EX.valid = false := by rw [x2]; exact g1 hi
        have hd2 : isDone m2 = true := by
          simp [isDone, a2, b2, g2 b1, hEX]
        right
        exact ⟨m2, by simp [hd2], by omega, by omega⟩

theorem loop_fatal_of_iter : ∀ (N : Nat) (s mN : Machine), iter N s = some mN →
    (∀ j, 1 ≤ j → j ≤ N → ∀ mj, iter j s = some mj → isDone mj = false) →
    cycleStep mN = none → ∀ fuel, N + 1 ≤ fuel → loop fuel s = .fatal := by
  intro N
  induction N with
  | zero =>
    intro s mN hit _ hc fuel hfuel
    obtain ⟨f, rfl⟩ : ∃ f, fuel = f + 1 := ⟨fuel - 1, by omega⟩
    simp only [iter] at hit
    injection hit with hit
    subst hit
    rw [loop, hc]
  | succ N ih =>
    intro s mN hit hnot hc fuel hfuel
    obtain ⟨f, rfl⟩ : ∃ f, fuel = f + 1 := ⟨fuel - 1, by omega⟩
    rw [iter] at hit
    cases hs : cycleStep s with
    | none => rw [hs] at hit; exact absurd hit (by simp)
    | some s1 =>
      rw [hs] at hit
      simp only at hit
      have h1 : isDone s1 = false :=
        hnot 1 (by omega) (by omega) s1 (by rw [iter_one]; exact hs)
      rw [loop, hs]
      simp only [h1]
      refine ih s1 mN hit ?_ hc f (by omega)
      intro j hj1 hjN mj hmj
      refine hnot (j + 1) (by omega) (by omega) mj ?_
      rw [iter, hs]
      exact hmj

theorem straight_iter_upto (im : Nat → Nat) (k c : Nat) (hk1 : 1 ≤ k) (hk : k ≤ 1024)
    (hnb : noBranchTaken (prefetch (initState im k)) c = true) :
    ∀ j, j ≤ c → ∃ mj, iter j (prefetch (initState im k)) = some mj ∧
      Straight k j mj ∧ StraightSlots im k j mj ∧ noBranchTaken mj (c - j) = true := by
  intro j
  induction j with
  | zero =>
    intro _
    exact ⟨_, rfl, straight_prefetch im k hk1 hk, slots_prefetch im k hk1, hnb⟩
  | succ j ih =>
    intro hj
    obtain ⟨mj, hit, hst, hsl, hn⟩ := ih (by omega)
    have e : c - j = (c - (j + 1)) + 1 := by omega
    rw [e] at hn
    obtain ⟨hnt, hrest⟩ := noBranchTaken_head _ _ hn
    obtain ⟨m2, hc, hst2, hsl2, _⟩ := straight_step_slots im k j mj hk hst hsl hnt
    refine ⟨m2, ?_, hst2, hsl2, hrest m2 hc⟩
    rw [iter_succ_right, hit]
    exact hc

theorem straight_slot_facts (im : Nat → Nat) (k j : Nat) (m : Machine)
    (hst : Straight k j m) (hsl : StraightSlots im k j m) :
    (m.IF.valid = true → j < k ∧ m.IF = fetched (im j) j) ∧
    (m.EX.valid = true → 2 ≤ j ∧ j ≤ k + 1 ∧ m.EX.instruction = im (j - 2) ∧
      m.EX.addr = j - 2) := by
  constructor
  · intro h
    rw [hst.hIF] at h
    have hj : j < k := by simpa using h
    exact ⟨hj, hsl.hIF hj⟩
  · intro h
    rw [hst.hEX] at h
    have hj : 2 ≤ j ∧ j ≤ k + 1 := by simpa using h
    obtain ⟨regs, he⟩ := hsl.hEX hj.1 hj.2
    obtain ⟨_, di, da, _⟩ := decode_fields regs (fetched (im (j - 2)) (j - 2)) rfl
    refine ⟨hj.1, hj.2, ?_, ?_⟩
    · rw [he, di]; rfl
    · rw [he, da]; rfl

theorem late_branch_run (im : Nat → Nat) (k fuel : Nat) (hk1 : 1 ≤ k) (hk : k ≤ 1024)
    (hnb : noBranchTaken (prefetch (initState im k)) k = true) (hf : k + 2 ≤ fuel) :
    (simulate fuel (initState im k) = .fatal ∨
      ∃ mf, simulate fuel (initState im k) = .finished mf ∧ mf.cycle = k + 3) ∧
    (∀ j, j ≤ k + 2 → ∀ mj, iter j (prefetch (initState im k)) = some mj →
      (mj.IF.valid = true → j < k ∧ mj.IF = fetched (im j) j) ∧
      (mj.EX.valid = true → 2 ≤ j ∧ j ≤ k + 1 ∧ mj.EX.instruction = im (j - 2) ∧
        mj.EX.addr = j - 2)) := by
  have H := straight_iter_upto im k k hk1 hk hnb
  obtain ⟨mk, hitk, hstk, hslk, _⟩ := H k (Nat.le_refl _)
  have hnotk : ∀ j, 1 ≤ j → j ≤ k → ∀ mj,
      iter j (prefetch (initState im k)) = some mj → isDone mj = false := by
    intro j _ hj mj hmj
    obtain ⟨mj2, hit2, hst2, _, _⟩ := H j hj
    rw [hit2] at hmj
    injection hmj with hmj
    subst hmj
    rw [straight_isDone k j _ hk1 hst2]
    simp; omega
  have hfk : mk.fetched_all = true := by rw [hstk.hall]; simp
  have hik : mk.IF.valid = false := by rw [hstk.hIF]; simp
  have hdk : mk.ID.valid = true := by rw [hstk.hID]; simp; omega
  have hidk := hslk.hID hk1 (Nat.le_refl _)
  obtain ⟨_, dik, dak, _⟩ := decode_fields mk.registers (fetched (im (k - 1)) (k - 1)) rfl
  cases hc1 : cycleStep mk with
  | none =>
    constructor
    · left
      exact loop_fatal_of_iter k _ mk hitk hnotk hc1 fuel (by omega)
    · intro j hj mj hmj
      by_cases hjk : j ≤ k
      · obtain ⟨mj2, hit2, hst2, hsl2, _⟩ := H j hjk
        rw [hit2] at hmj
        injection hmj with hmj
        subst hmj
        exact straight_slot_facts im k j _ hst2 hsl2
      · have hnone : iter (k + 1) (prefetch (initState im k)) = none := by
          rw [iter_succ_right, hitk]; exact hc1
        by_cases hj1 : j = k + 1
        · subst hj1
          rw [hnone] at hmj
          exact absurd hmj (by simp)
        · have hj2 : j = k + 2 := by omega
          subst hj2
          have hnone2 : iter (k + 2) (prefetch (initState im k)) = none := by
            rw [iter_succ_right, hnone]; rfl
          rw [hnone2] at hmj
          exact absurd hmj (by simp)
  | some m1 =>
    obtain ⟨a1, b1, _, _, e1, x1, g1⟩ := cycleStep_exhausted mk m1 hc1 hfk
    have hit1 : iter (k + 1) (prefetch (initState im k)) = some m1 := by
      rw [iter_succ_right, hitk]; exact hc1
    have hex1 : m1.EX.valid = true := by rw [x1]; exact hdk
    have hd1 : isDone m1 = false := by simp [isDone, hex1]
    have hnot1 : ∀ j, 1 ≤ j → j ≤ k + 1 → ∀ mj,
        iter j (prefetch (initState im k)) = some mj → isDone mj = false := by
      intro j hj1 hj mj hmj
      by_cases hjk : j ≤ k
      · exact hnotk j hj1 hjk mj hmj
      · have : j = k + 1 := by omega
        subst this
        rw [hit1] at hmj
        injection hmj with hmj
        subst hmj
        exact hd1
    have facts1 : (m1.IF.valid = true → k + 1 < k ∧ m1.IF = fetched (im (k + 1)) (k + 1)) ∧
        (m1.EX.valid = true → 2 ≤ k + 1 ∧ k + 1 ≤ k + 1 ∧ m1.EX.instruction = im (k + 1 - 2) ∧
          m1.EX.addr = k + 1 - 2) := by
      constructor
      · intro h; rw [b1] at h; exact absurd h (by simp)
      · intro _
        have e : k + 1 - 2 = k - 1 := by omega
        refine ⟨by omega, Nat.le_refl _, ?_, ?_⟩
        · rw [x1, hidk, dik, e]; rfl
        · rw [x1, hidk, dak, e]; rfl
    cases hc2 : cycleStep m1 with
    | none =>
      constructor
      · left
        exact loop_fatal_of_iter (k + 1) _ m1 hit1 hnot1 hc2 fuel (by omega)
      · intro j hj mj hmj
        by_cases hjk : j ≤ k
        · obtain ⟨mj2, hit2, hst2, hsl2, _⟩ := H j hjk
          rw [hit2] at hmj
          injection hmj with hmj
          subst hmj
          exact straight_slot_facts im k j _ hst2 hsl2
        · by_cases hj1 : j = k + 1
          · subst hj1
            rw [hit1] at hmj
            injection hmj with hmj
            subst hmj
            exact facts1
          · have hj2 : j = k + 2 := by omega
            subst hj2
            have : iter (k + 2) (prefetch (initState im k)) = none := by
              rw [iter_succ_right, hit1]; exact hc2
            rw [this] at hmj
            exact absurd hmj (by simp)
    | some m2 =>
      obtain ⟨a2, b2, _, _, e2, x2, g2⟩ := cycleStep_exhausted m1 m2 hc2 a1
      have hit2 : iter (k + 2) (prefetch (initState im k)) = some m2 := by
        rw [iter_succ_right, hit1]; exact hc2
      have hex2 : m2.EX.valid = false := by rw [x2]; exact g1 hik
      have hd2 : isDone m2 = true := by simp [isDone, a2, b2, g2 b1, hex2]
      constructor
      · right
        refine ⟨m2, loop_of_iter (k + 2) _ m2 (by omega) hit2 hd2 ?_ fuel hf, ?_⟩
        · intro j hj1 hj mj hmj
          exact hnot1 j hj1 (by omega) mj hmj
        · rw [e2, e1, hstk.hcycle]
      · intro j hj mj hmj
        by_cases hjk : j ≤ k
        · obtain ⟨mj2, hitj, hst2, hsl2, _⟩ := H j hjk
          rw [hitj] at hmj
          injection hmj with hmj
          subst hmj
          exact straight_slot_facts im k j _ hst2 hsl2
        · by_cases hj1 : j = k + 1
          · subst hj1
            rw [hit1] at hmj
            injection hmj with hmj
            subst hmj
            exact facts1
          · have hj2 : j = k + 2 := by omega
            subst hj2
            rw [hit2] at hmj
            injection hmj with hmj
            subst hmj
            constructor
            · intro h; rw [b2] at h; exact absurd h (by simp)
            · intro h; rw [hex2] at h; exact absurd h (by simp)

/-! ## Index bounds -/

theorem execute_PC (st : PipelineStage) (m m1 : Machine) (h : execute st m = some m1) :
    m1.PC = m.PC ∨ m1.PC < m.program_size := by
  by_cases hv : st.valid = true
  · obtain ⟨ins, v, op, r1, r2, im, a, b, ad⟩ := st
    simp only at hv
    subst hv
    match op with
    | 0 | 1 | 2 | 3 | 5 | 6 | 8 | 9 | 10 | 11 =>
      simp [execute, finish] at h
      subst h
      exact Or.inl rfl
    | 4 =>
      simp only [execute, finish] at h
      simp at h
      split at h
      · split at h
        · exact absurd h (by simp)
        · rename_i hlt
          injection h with h; subst h
          exact Or.inr (by simpa using hlt)
      · injection h with h; subst h; exact Or.inl rfl
    | 7 =>
      simp only [execute, finish] at h
      simp at h
      obtain ⟨hlt, h⟩ := h
      subst h
      exact Or.inr hlt
    | n + 12 =>
      simp [execute, finish] at h
      subst h
      exact Or.inl rfl
  · simp [execute, hv] at h
    subst h
    exact Or.inl rfl

theorem decode_r1_lt (regs : Nat → Nat) (st : PipelineStage) (h : st.valid = true) :
    (decode regs st).r1 < 64 := by
  rw [(decode_fields regs st h).2.2.2.2.1]
  exact and_63_lt _

theorem advance_PC (m : Machine) (hs : m.program_size ≤ 1024) (hp : m.PC ≤ m.program_size) :
    (advance m).PC ≤ m.program_size := by
  by_cases h : m.fetched_all = false ∧ m.PC < m.program_size
  · rw [advance_fetch m h.1 h.2]
    simp only
    omega
  · have h' : m.fetched_all = true ∨ ¬ m.PC < m.program_size := by
      cases hf : m.fetched_all
      · right; intro hlt; exact h ⟨hf, hlt⟩
      · left; rfl
    rw [advance_nofetch m h']
    exact hp

theorem safe_step (m m2 : Machine) (hi : SafeInv m) (h : cycleStep m = some m2) :
    SafeInv m2 := by
  obtain ⟨m1, he, _, _, _, hEX, hID⟩ := cycleStep_decode m m2 h
  have fr := execute_frame _ _ _ he
  have hc : m2 = applyFlush (advance m1) := by
    simp only [cycleStep, he] at h
    injection h with h
    exact h.symm
  have af := applyFlush_fields (advance m1)
  have ad := advance_fields m1
  have hsz : m2.program_size = m.program_size := by
    rw [hc, af.2.2.2.2.2.1, ad.2.2.2.2.2.2.1, fr.hsize]
  have hp1 : m1.PC ≤ m1.program_size := by
    rw [fr.hsize]
    rcases execute_PC _ _ _ he with e | e
    · rw [e]; exact hi.hPC
    · omega
  refine ⟨by rw [hsz]; exact hi.hsize, ?_, ?_, ?_⟩
  · rw [hsz, hc, af.2.2.1, ← fr.hsize]
    exact advance_PC m1 (by rw [fr.hsize]; exact hi.hsize) hp1
  · intro hv
    rcases hID with e | e
    · rw [e] at hv ⊢
      rw [decode_valid] at hv
      exact decode_r1_lt _ _ hv
    · rw [e] at hv
      exact absurd hv (by simp)
  · rw [hEX]; exact hi.hID

theorem safe_prefetch (im : Nat → Nat) (k : Nat) (hk : k ≤ 1024) :
    SafeInv (prefetch (initState im k)) := by
  unfold prefetch initState
  split
  · rename_i h
    simp only at h
    refine ⟨hk, ?_, by simp [zeroStage], by simp [zeroStage]⟩
    simp only
    omega
  · exact ⟨hk, by simp, by simp [zeroStage], by simp [zeroStage]⟩

theorem reachable_safe (m : Machine) (h : Reachable m) : SafeInv m := by
  obtain ⟨im, k, n, hk, hn⟩ := h
  exact iter_inv SafeInv safe_step n _ m (safe_prefetch im k hk) hn

/-- C20. For every program of at most 1024 words: the pre-fetch reads
`instr_mem` below `program_size`; and in every state at the top of a loop
iteration of the run, `PC ≤ program_size`, the register index that `execute`
writes is below 64, the data-memory index that it accesses is below 64, and,
when `execute` returns, the fetch of that cycle reads `instr_mem` at an index
below `program_size`. Every register index that `decode` reads is below 64, for
every instruction word, the opcodes 12-15 included. -/
theorem index_bounds :
    (∀ (im : Nat → Nat) (k i : Nat), k ≤ 1024 →
      prefetchRead (initState im k) = some i → i < k) ∧
    (∀ m, Reachable m →
      m.program_size ≤ 1024 ∧ m.PC ≤ m.program_size ∧
      (∀ i, executeRegWrite m.EX = some i → i < 64) ∧
      (∀ i, executeMemAccess m.EX = some i → i < 64) ∧
      (∀ m1 i, execute m.EX m = some m1 → fetchRead m1 = some i → i < m1.program_size) ∧
      (∀ m2, cycleStep m = some m2 → m2.PC ≤ m2.program_size)) ∧
    (∀ (st : PipelineStage) (i : Nat), i ∈ decodeRegReads st → i < 64) := by
  refine ⟨?_, ?_, ?_⟩
  · intro im k i _ h
    unfold prefetchRead initState at h
    simp only at h
    split at h
    · injection h with h
      omega
    · exact absurd h (by simp)
  · intro m hr
    have inv := reachable_safe m hr
    refine ⟨inv.hsize, inv.hPC, ?_, ?_, ?_, ?_⟩
    · intro i h
      unfold executeRegWrite at h
      split at h
      · exact absurd h (by simp)
      · rename_i hv
        have hv' : m.EX.valid = true := by simpa using hv
        split at h <;> first
          | (injection h with h; rw [← h]; exact inv.hEX hv')
          | simp at h
    · intro i h
      unfold executeMemAccess at h
      split at h
      · exact absurd h (by simp)
      · split at h <;> first
          | (injection h with h; rw [← h]; exact memAddrOf_lt _)
          | simp at h
    · intro m1 i _ h
      unfold fetchRead at h
      split at h
      · rename_i hc
        injection h with h
        rw [← h]
        exact hc.2
      · exact absurd h (by simp)
    · intro m2 h2
      exact (safe_step m m2 inv h2).hPC
  · intro st i h
    unfold decodeRegReads at h
    split at h
    · exact absurd h (by simp)
    · simp only at h
      split at h
      · simp only [List.mem_cons, List.mem_singleton, List.not_mem_nil, or_false] at h
        rcases h with h | h <;> rw [h] <;> exact and_63_lt _
      · simp only [List.mem_singleton] at h
        rw [h]
        exact and_63_lt _

theorem fetch_attempt_exhausts (m m1 m2 : Machine) (he : execute m.EX m = some m1)
    (hc : cycleStep m = some m2) (hp : m1.PC ≥ m1.program_size) :
    m2.fetched_all = true ∧ m2.IF.valid = false := by
  simp only [cycleStep, he] at hc
  injection hc with hc
  subst hc
  have hn : m1.fetched_all = true ∨ ¬ m1.PC < m1.program_size := Or.inr (by omega)
  have hA : (advance m1).fetched_all = true ∧ (advance m1).IF.valid = false := by
    rw [advance_nofetch m1 hn]
    simp [hp]
  exact ⟨by rw [(applyFlush_fields _).2.2.2.2.2.2.1]; exact hA.1,
    (applyFlush_slots _).2.2.1 hA.2⟩

/-- C19. Fetch exhaustion is permanent and bounds the run. A cycle whose fetch is
attempted with `PC ≥ program_size` sets `fetched_all` and leaves the Fetch slot
invalid. From a state with `fetched_all` set, every later state has `fetched_all`
set and an invalid Fetch slot that still holds the same word and fetch-PC, for
every instruction executed in between, taken branches included; and if the
Fetch slot is invalid the loop is fatal or ends after at most two more cycles.
Consequently, for a program of `k` instructions (`1 ≤ k ≤ 1024`) in which no
branch is taken before the last two instructions execute, the run is fatal or
ends after exactly `k + 2` cycles, and in every state of the run a valid Fetch
slot holds the instruction of index `j < k` and a valid Execute slot holds the
instruction of index `j - 2`, so nothing beyond the straight-line order is
fetched or executed. -/
theorem fetch_exhaustion_permanent :
    (∀ m m1 m2, execute m.EX m = some m1 → cycleStep m = some m2 →
      m1.PC ≥ m1.program_size → m2.fetched_all = true ∧ m2.IF.valid = false) ∧
    (∀ (n : Nat) (m m2 : Machine), m.fetched_all = true → iter n m = some m2 →
      m2.fetched_all = true ∧ (1 ≤ n → m2.IF.valid = false) ∧
      m2.IF.instruction = m.IF.instruction ∧ m2.IF.addr = m.IF.addr) ∧
    (∀ (m : Machine) (fuel : Nat), m.fetched_all = true → m.IF.valid = false → 2 ≤ fuel →
      loop fuel m = .fatal ∨
        ∃ mf, loop fuel m = .finished mf ∧ mf.cycle ≤ m.cycle + 2) ∧
    (∀ (im : Nat → Nat) (k fuel : Nat), 1 ≤ k → k ≤ 1024 →
      noBranchTaken (prefetch (initState im k)) k = true → k + 2 ≤ fuel →
      (simulate fuel (initState im k) = .fatal ∨
        ∃ mf, simulate fuel (initState im k) = .finished mf ∧ mf.cycle = k + 3) ∧
      (∀ j, j ≤ k + 2 → ∀ mj, iter j (prefetch (initState im k)) = some mj →
        (mj.IF.valid = true → j < k ∧ mj.IF = fetched (im j) j) ∧
        (mj.EX.valid = true → 2 ≤ j ∧ j ≤ k + 1 ∧ mj.EX.instruction = im (j - 2) ∧
          mj.EX.addr = j - 2))) := by
  refine ⟨fetch_attempt_exhausts, iter_exhausted, ?_, late_branch_run⟩
  intro m fuel hf hi h2
  rcases drain_two m fuel hf hi h2 with h | ⟨mf, h, hle, _⟩
  · exact Or.inl h
  · exact Or.inr ⟨mf, h, hle⟩

/-! ## Instances for the later theorems -/

/-- C11 (instances): `STR R1 10` with `registers[1] = 63` and `LDR R2 10`, from the
initial state. -/
theorem str_ldr_data_memory_witness :
    (strSlot.valid = true ∧ ldrSlot.valid = true) ∧
    (∃ m1, execute (decode regsOne strSlot) (initState (fun _ => 0) 3) = some m1 ∧
        m1.data_mem (strSlot.instruction &&& 0x3F) = (decode regsOne strSlot).r1_val ∧
        (∀ j, j ≠ strSlot.instruction &&& 0x3F →
          m1.data_mem j = (initState (fun _ => 0) 3).data_mem j) ∧
        m1.registers = (initState (fun _ => 0) 3).registers) ∧
    (∃ m1, execute (decode regsOne ldrSlot) (initState (fun _ => 0) 3) = some m1 ∧
        m1.registers ((ldrSlot.instruction >>> 6) &&& 0x3F) =
          (initState (fun _ => 0) 3).data_mem (ldrSlot.instruction &&& 0x3F) ∧
        (∀ j, j ≠ (ldrSlot.instruction >>> 6) &&& 0x3F →
          m1.registers j = (initState (fun _ => 0) 3).registers j) ∧
        m1.data_mem = (initState (fun _ => 0) 3).data_mem) :=
  ⟨⟨rfl, rfl⟩,
    (str_ldr_data_memory regsOne strSlot (initState (fun _ => 0) 3) rfl).2.1 (by decide),
    (str_ldr_data_memory regsOne ldrSlot (initState (fun _ => 0) 3) rfl).2.2.1 (by decide)⟩

/-- C12 (instance): SUB of 100 and 200 from the initial state. -/
theorem execute_sreg_frame_witness :
    ((initState (fun _ => 0) 0).SREG < 256 ∧ (initState (fun _ => 0) 0).SREG &&& 0xE0 = 0 ∧
      subSlot.valid = true ∧
      ¬ (takenBranch subSlot = true ∧
        branchTarget subSlot ≥ (initState (fun _ => 0) 0).program_size)) ∧
    ∃ m1, execute subSlot (initState (fun _ => 0) 0) = some m1 ∧ m1.SREG < 256 ∧
      m1.SREG &&& 0xE0 = 0 ∧
      ((subSlot.opcode = 3 ∨ subSlot.opcode = 4 ∨ subSlot.opcode = 7 ∨ subSlot.opcode = 10 ∨
          subSlot.opcode = 11 ∨ 12 ≤ subSlot.opcode) →
        m1.SREG = (initState (fun _ => 0) 0).SREG) ∧
      ((subSlot.opcode = 2 ∨ subSlot.opcode = 5 ∨ subSlot.opcode = 6 ∨ subSlot.opcode = 8 ∨
          subSlot.opcode = 9) →
        ∀ j, j ≠ 0 → j ≠ 1 → bitOf m1.SREG j = bitOf (initState (fun _ => 0) 0).SREG j) ∧
      (subSlot.opcode = 1 → flagC m1.SREG = flagC (initState (fun _ => 0) 0).SREG) :=
  ⟨⟨by decide, by decide, rfl, by decide⟩,
    execute_sreg_frame subSlot (initState (fun _ => 0) 0) (by decide) (by decide) rfl
      (by decide)⟩

/-- C13 (instance): SAR of 253 (that is -3) by 1 gives 254 (that is -2). -/
theorem execute_alu_values_witness :
    (sarSlot.valid = true ∧ sarSlot.r1_val < 256 ∧ sarSlot.r2_val < 256 ∧ sarSlot.imm < 64 ∧
      sarSlot.opcode = 9) ∧
    ∃ m1, execute sarSlot (initState (fun _ => 0) 0) = some m1 ∧
      (m1.registers sarSlot.r1 : Int) =
        (Int.fdiv (signed8 sarSlot.r1_val) (2 ^ (sarSlot.imm % 8))) % 256 ∧
      (flagN m1.SREG = 1 ↔ (m1.registers sarSlot.r1).testBit 7 = true) ∧
      (flagZ m1.SREG = 1 ↔ m1.registers sarSlot.r1 = 0) :=
  ⟨⟨rfl, by decide, by decide, by decide, rfl⟩,
    match execute_alu_values sarSlot (initState (fun _ => 0) 0) rfl (by decide) (by decide)
      (by decide) (Or.inr (Or.inr (Or.inr (Or.inr (Or.inr rfl))))) with
    | ⟨m1, he, _, _, _, _, _, h9, hf⟩ => ⟨m1, he, h9 rfl, hf (by decide)⟩⟩

/-- C14 (instance): `MOVI R0 200` as the only line of the program. -/
theorem load_ifmt_line_witness :
    (iOpcode "MOVI" = some 3 ∧ 0 < 64 ∧ loadProgram [] = some [] ∧
      ([] : List Line).length < 1024) ∧
    (loadLine (.ifmt "MOVI" ((0 : Nat) : Int) 200) = none ↔
      if "MOVI" = "LDR" ∨ "MOVI" = "STR" then (200 : Int) < 0 ∨ 63 < (200 : Int)
      else (200 : Int) < -32 ∨ 31 < (200 : Int)) ∧
    (loadLine (.ifmt "MOVI" ((0 : Nat) : Int) 200) = none →
      loadProgram ([] ++ .ifmt "MOVI" ((0 : Nat) : Int) 200 :: []) = none) :=
  ⟨⟨rfl, by decide, rfl, by decide⟩,
    (load_ifmt_line "MOVI" 3 0 200 [] [] [] rfl (by decide) rfl (by decide)).2.1,
    (load_ifmt_line "MOVI" 3 0 200 [] [] [] rfl (by decide) rfl (by decide)).2.2.1⟩

/-- C16 (instances): `ADD R1 R2` and `MOVI R0 -5`. -/
theorem encode_decode_roundtrip_witness :
    (∃ w, loadLine (.rfmt "ADD" ((1 : Nat) : Int) ((2 : Nat) : Int)) = some w ∧
        (decode (fun _ => 0) (fetched w 0)).opcode = 0 ∧
        (decode (fun _ => 0) (fetched w 0)).r1 = 1 ∧
        (decode (fun _ => 0) (fetched w 0)).r2 = 2) ∧
    (∃ w, loadLine (.ifmt "MOVI" ((0 : Nat) : Int) (-5)) = some w ∧
        (decode (fun _ => 0) (fetched w 0)).opcode = 3 ∧
        (decode (fun _ => 0) (fetched w 0)).r1 = 0 ∧
        immOf (decode (fun _ => 0) (fetched w 0)) = -5) :=
  ⟨(encode_decode_roundtrip (fun _ => 0) 0).1 "ADD" 0 1 2 rfl (by decide) (by decide),
    (encode_decode_roundtrip (fun _ => 0) 0).2.1 "MOVI" 3 0 (-5) rfl (by decide) (by decide)
      (by decide) (by decide) (by decide)⟩

theorem addState_step (n : Nat) (h : (iter (n + 1) (prefetch (initState
    (fun i => [0x3005, 0x3043, 0x0001].getD i 0) 3))).isSome = true) :
    cycleStep (addState n) = some (addState (n + 1)) := by
  unfold addState
  rw [iter_succ_right] at h ⊢
  cases hi : iter n (prefetch (initState (fun i => [0x3005, 0x3043, 0x0001].getD i 0) 3)) with
  | none => rw [hi] at h; exact absurd h (by simp)
  | some m =>
    rw [hi] at h
    simp only [Option.bind, Option.getD] at h ⊢
    cases hc : cycleStep m with
    | none => rw [hc] at h; exact absurd h (by simp)
    | some m2 => rfl

/-- C17 (instance): in cycle 3 of `MOVI R0 5; MOVI R1 3; ADD R0 R1` the Execute slot
holds `MOVI R0 5` and the Fetch slot `ADD R0 R1`; after the cycle the operand-1
snapshot of the ADD in the Decode slot is 5. -/
theorem decode_reads_after_execute_witness :
    (cycleStep (addState 2) = some (addState 3) ∧ (addState 2).IF.valid = true ∧
      (addState 2).EX.valid = true ∧ resultOf (addState 2).EX (addState 2) = some 5 ∧
      (addState 3).ID.r1 = (addState 2).EX.r1) ∧
    (addState 3).ID.r1_val = 5 :=
  ⟨⟨addState_step 2 (by decide), by decide, by decide, by decide, by decide⟩,
    match decode_reads_after_execute (addState 2) (addState 3)
      (addState_step 2 (by decide)) (by decide) with
    | ⟨_, _, _, _, _, _, _, _, hv⟩ => (hv 5 (by decide) (by decide)).1 (by decide)⟩

/-- C18 (instance): the three instructions of `progAdd` execute in cycles 3, 4, 5. -/
theorem straight_line_order_witness :
    (1 ≤ 3 ∧ 3 ≤ 1024 ∧
      noBranchTaken (prefetch (initState (fun i => [0x3005, 0x3043, 0x0001].getD i 0) 3))
        (3 + 2) = true ∧ 3 + 2 ≤ 10) ∧
    (∃ mf, simulate 10 (initState (fun i => [0x3005, 0x3043, 0x0001].getD i 0) 3) =
        .finished mf ∧ mf.cycle = 3 + 3) ∧
    (∀ i, i < 3 →
      ∃ s1 s2,
        iter (i + 1) (prefetch (initState (fun i => [0x3005, 0x3043, 0x0001].getD i 0) 3)) =
          some s1 ∧
        iter (i + 2) (prefetch (initState (fun i => [0x3005, 0x3043, 0x0001].getD i 0) 3)) =
          some s2 ∧
        s1.cycle = i + 2 ∧ s2.cycle = i + 3 ∧
        s2.EX.valid = true ∧ s2.EX.instruction = [0x3005, 0x3043, 0x0001].getD i 0 ∧
        s2.EX.addr = i ∧
        s2.EX = decode s1.registers (fetched ([0x3005, 0x3043, 0x0001].getD i 0) i)) :=
  ⟨⟨by decide, by decide, by decide, by decide⟩,
    (straight_line_order (fun i => [0x3005, 0x3043, 0x0001].getD i 0) 3 10
      (by decide) (by decide) (by decide) (by decide)).1,
    (straight_line_order (fun i => [0x3005, 0x3043, 0x0001].getD i 0) 3 10
      (by decide) (by decide) (by decide) (by decide)).2.2⟩

theorem load_progLateBranch : loadProgram progLateBranch = some wordsLateBranch := by
  decide

/-- The run of `progLateBranch`: at the top of cycle 6 the Execute slot holds the
taken branch with target 1, fetch is already exhausted, and the run ends after 7
cycles with R4 = 4 and PC = 1. -/
theorem late_branch_eval :
    ((stateAfter 5 progLateBranch).map fun m =>
        (m.EX.valid, m.EX.opcode, m.EX.addr, m.EX.r1_val, branchTarget m.EX, m.fetched_all)) =
      some (true, 4, 3, 0, 1, true) ∧
    ((main 100 progLateBranch).final.map fun m =>
        (m.cycle, m.PC, m.registers 1, m.registers 4)) = some (8, 1, 1, 4) := by
  decide

/-- C19 (instance): on `progLateBranch`, five instructions with a taken branch at
index 3, the run is fatal or ends after 7 cycles and fetches or executes nothing
beyond the straight-line order. -/
theorem fetch_exhaustion_permanent_witness :
    (1 ≤ 5 ∧ 5 ≤ 1024 ∧
      noBranchTaken (prefetch (initState (fun i => wordsLateBranch.getD i 0) 5)) 5 = true ∧
      5 + 2 ≤ 10) ∧
    (simulate 10 (initState (fun i => wordsLateBranch.getD i 0) 5) = .fatal ∨
      ∃ mf, simulate 10 (initState (fun i => wordsLateBranch.getD i 0) 5) = .finished mf ∧
        mf.cycle = 5 + 3) ∧
    (∀ j, j ≤ 5 + 2 → ∀ mj,
      iter j (prefetch (initState (fun i => wordsLateBranch.getD i 0) 5)) = some mj →
      (mj.IF.valid = true →
        j < 5 ∧ mj.IF = fetched ((fun i => wordsLateBranch.getD i 0) j) j) ∧
      (mj.EX.valid = true → 2 ≤ j ∧ j ≤ 5 + 1 ∧
        mj.EX.instruction = (fun i => wordsLateBranch.getD i 0) (j - 2) ∧
        mj.EX.addr = j - 2)) :=
  ⟨⟨by decide, by decide, by decide, by decide⟩,
    fetch_exhaustion_permanent.2.2.2 (fun i => wordsLateBranch.getD i 0) 5 10
      (by decide) (by decide) (by decide) (by decide)⟩

/-- C20 (instance): the state after 5 cycles on `wordsTwoBeqz`. -/
theorem index_bounds_witness :
    Reachable (twoBeqzState 5) ∧
    ((twoBeqzState 5).program_size ≤ 1024 ∧
      (twoBeqzState 5).PC ≤ (twoBeqzState 5).program_size ∧
      (∀ i, executeRegWrite (twoBeqzState 5).EX = some i → i < 64) ∧
      (∀ i, executeMemAccess (twoBeqzState 5).EX = some i → i < 64) ∧
      (∀ m1 i, execute (twoBeqzState 5).EX (twoBeqzState 5) = some m1 →
        fetchRead m1 = some i → i < m1.program_size) ∧
      (∀ m2, cycleStep (twoBeqzState 5) = some m2 → m2.PC ≤ m2.program_size)) :=
  ⟨twoBeqz_reachable 5 (by decide),
    index_bounds.2.1 (twoBeqzState 5) (twoBeqz_reachable 5 (by decide))⟩


end CA
